import Mathlib

/-!
# kubeversion: version activation and resolution core

A shallow embedding of `internal/version/version.go` and
`internal/download/download.go`.

Go strings are modelled as lists of characters (`Str`); the comparison of two
strings is the lexicographic order on the characters, which for well-formed
UTF-8 text coincides with Go's byte-wise comparison.  File contents are lists
of bytes (`List Nat`).  The platform is a Unix one: the path separator is `/`
and the path-list separator is `:`.

The functions of the standard library that the program calls (`strings`,
`path/filepath`, `os`, `sort`, `net/http`) are modelled after their documented
behaviour.  A run of a function of the program takes the `World` it starts in
and returns the error of the Go function (`none` for `nil`) together with the
`World` it leaves.  `ListVersions`, which drives the interactive prompt, and
`main` are not embedded; the progress bar of the installer writes nothing that
the program reads.
-/

namespace Kubeversion

/-- A Go string. -/
abbrev Str := List Char

/-! ## Package `strings` -/

/-- Go `strings.HasPrefix`. -/
def HasPrefix (s pre : Str) : Bool := pre.isPrefixOf s

/-- Go `strings.TrimPrefix`: `s` without the leading `pre`, or `s` itself when
`s` does not start with `pre`. -/
def TrimPrefix (s pre : Str) : Str :=
  if HasPrefix s pre then s.drop pre.length else s

/-- Go `strings.Split` for a one-character separator: the segments of `s`
between the occurrences of `sep`.  The empty string has the one segment `""`. -/
def Split (s : Str) (sep : Char) : List Str :=
  match s with
  | [] => [[]]
  | c :: cs =>
    if c = sep then [] :: Split cs sep
    else
      match Split cs sep with
      | [] => [[c]]
      | seg :: segs => (c :: seg) :: segs

/-! ## Version normalization -/

/-- The constant `versionPrefix` of `download.go`. -/
def versionPrefix : Str := "v".toList

/-- The first statement of both `SwitchVersion` and `InstallVersion`:
`if !strings.HasPrefix(version, "v") { version = "v" + version }`. -/
def normalize (version : Str) : Str :=
  if !HasPrefix version versionPrefix then versionPrefix ++ version else version

/-! ## Package `path/filepath` (Unix) -/

/-- The path element `.`. -/
def dot : Str := ".".toList

/-- The path element `..`. -/
def dotdot : Str := "..".toList

/-- Go `strings.Join` with the path separator. -/
def joinSep : List Str → Str
  | [] => []
  | [e] => e
  | e :: es => e ++ '/' :: joinSep es

/-- One element of the scan of `filepath.Clean`.  `stack` holds the elements kept
so far, the last one first.  Empty elements (from repeated separators) and `.`
are dropped; `..` removes the preceding element when that is not itself `..`,
is dropped at the root of a rooted path and is kept otherwise. -/
def cleanStep (rooted : Bool) (stack : List Str) (c : Str) : List Str :=
  if c = [] ∨ c = dot then stack
  else if c = dotdot then
    match stack with
    | [] => if rooted then [] else [dotdot]
    | t :: rest => if t = dotdot then dotdot :: stack else rest
  else c :: stack

/-- Whether a path starts with the separator. -/
def isRooted (path : Str) : Bool := path.head? = some '/'

/-- The elements that `filepath.Clean` keeps, in order. -/
def cleanElems (path : Str) : List Str :=
  ((Split path '/').foldl (cleanStep (isRooted path)) []).reverse

/-- Go `filepath.Clean`: the shortest path name equivalent to `path` by purely
lexical processing.  The result ends in a slash only if it is the root, and the
empty path becomes `.`. -/
def Clean (path : Str) : Str :=
  if isRooted path then '/' :: joinSep (cleanElems path)
  else if cleanElems path = [] then dot
  else joinSep (cleanElems path)

/-- Go `filepath.Join`: leading empty elements are skipped, the rest is joined
with the separator and cleaned; when every element is empty the result is the
empty string. -/
def Join (elem : List Str) : Str :=
  match elem.dropWhile (fun e => e.isEmpty) with
  | [] => []
  | es => Clean (joinSep es)

/-! ## Byte-wise string order and sorting -/

/-- Go's `a <= b` on strings: lexicographic comparison, a proper prefix first. -/
def strLE : Str → Str → Bool
  | [], _ => true
  | _ :: _, [] => false
  | a :: as, b :: bs =>
    if a.toNat < b.toNat then true
    else if b.toNat < a.toNat then false
    else strLE as bs

/-- The order of `sort.StringSlice`: ascending. -/
def Ascending (a b : Str) : Prop := strLE a b = true

/-- The order of `sort.Reverse(sort.StringSlice(..))`: descending. -/
def Descending (a b : Str) : Prop := strLE b a = true

instance : DecidableRel Ascending := fun a b => inferInstanceAs (Decidable (strLE a b = true))

instance : DecidableRel Descending := fun a b => inferInstanceAs (Decidable (strLE b a = true))

/-! ## The file system -/

/-- The error numbers that the modelled system calls report. -/
inductive Errno
  | ENOENT
  | ENOTDIR
  | EEXIST
  | EISDIR
  | ELOOP
  | ENAMETOOLONG
  | EINVAL
  deriving DecidableEq, Repr

deriving instance DecidableEq for Except

/-- Go `os.IsNotExist` on an error of a system call. -/
def IsNotExist (e : Errno) : Bool := e = Errno.ENOENT

/-- An object of the file system. -/
inductive Node
  | file (content : List Nat)
  | symlink (target : Str)
  | dir
  deriving DecidableEq, Repr

/-- The name of an object: the elements of its cleaned path; a rooted path has
the empty string as its first element.  `[]` is the working directory and
`[""]` the root. -/
abbrev Key := List Str

/-- The file system: the objects that exist, by name.  The first entry for a
name is the object; the working directory and the root always exist.

A symbolic link is followed where it is the last element of the path of `Stat`
or `OpenFile`.  A symbolic link in a directory position, which includes the
last element for `ReadDir` and `MkdirAll`, is reported as `ENOTDIR`: file
systems in which a directory of the managed paths is reached through a
symbolic link are outside the model.  Permissions, quotas and device errors
are not part of the state. -/
abbrev FS := List (Key × Node)

/-- The number of bytes of a character in UTF-8. -/
def charBytes (c : Char) : Nat :=
  if c.toNat < 128 then 1 else if c.toNat < 2048 then 2 else if c.toNat < 65536 then 3 else 4

/-- The number of bytes of a string. -/
def byteLen (s : Str) : Nat := (s.map charBytes).sum

/-- The limit `NAME_MAX` on the bytes of one path element. -/
def nameMax : Nat := 255

/-- The limit `PATH_MAX` on the bytes of a path, the terminating zero included. -/
def pathMax : Nat := 4096

/-- The zero byte, which no path handed to the system may contain. -/
def nul : Char := Char.ofNat 0

/-- The name that a path string denotes. -/
def pathKey (path : Str) : Key :=
  (if isRooted path then [[]] else []) ++ cleanElems path

/-- Whether the last element of a name is within `NAME_MAX`. -/
def nameOk (k : Key) : Bool :=
  match k.getLast? with
  | some c => decide (byteLen c ≤ nameMax)
  | none => true

/-- The number of bytes of the path with the name `k`. -/
def keyBytes (k : Key) : Nat := (k.map byteLen).sum + (k.length - 1)

/-- The checks on a path before the walk: a zero byte is `EINVAL` (package
`syscall` refuses the string), a path of `PATH_MAX` bytes or more is
`ENAMETOOLONG`. -/
def checkKey (k : Key) : Option Errno :=
  if k.any (fun c => decide (nul ∈ c)) then some Errno.EINVAL
  else if pathMax ≤ keyBytes k then some Errno.ENAMETOOLONG
  else none

/-- The object with the name `k`, if there is one.  No object has a name whose
last element exceeds `NAME_MAX`. -/
def nodeAt (fs : FS) (k : Key) : Option Node :=
  if k = [] ∨ k = [[]] then some Node.dir
  else if nameOk k then fs.lookup k
  else none

/-- The error of a lookup that finds nothing under the name `k`. -/
def absent (k : Key) : Errno :=
  if nameOk k then Errno.ENOENT else Errno.ENAMETOOLONG

/-- Checks that every name of the list is a directory, in order. -/
def checkDirs (fs : FS) : List Key → Option Errno
  | [] => none
  | a :: as =>
    match nodeAt fs a with
    | some Node.dir => checkDirs fs as
    | none => some (absent a)
    | some _ => some Errno.ENOTDIR

/-- The path walk up to the last element: every proper prefix of `k` has to be
a directory. -/
def walk (fs : FS) (k : Key) : Option Errno := checkDirs fs k.inits.dropLast

/-- The system call `lstat`. -/
def lstat (fs : FS) (k : Key) : Except Errno Node :=
  match checkKey k with
  | some e => .error e
  | none =>
    match walk fs k with
    | some e => .error e
    | none =>
      match nodeAt fs k with
      | none => .error (absent k)
      | some n => .ok n

/-- The elements of the target of a symbolic link: the segments between the
separators, without the empty ones and without `.`. -/
def rawElems (t : Str) : List Str :=
  (Split t '/').filter fun c => decide (c ≠ [] ∧ c ≠ dot)

/-- The directory above the directory `k`. -/
def parentKey (k : Key) : Key :=
  if k = [[]] then [[]]
  else if k = [] ∨ k.getLast? = some dotdot then k ++ [dotdot]
  else k.dropLast

/-- The walk over the elements of a link target from the directory `cur`: each
element is looked up in a directory that has to exist, and `..` steps to the
directory above. -/
def walkFrom (fs : FS) : Key → List Str → Except Errno Key
  | cur, [] => .ok cur
  | cur, c :: rest =>
    match checkDirs fs [cur] with
    | some e => .error e
    | none => walkFrom fs (if c = dotdot then parentKey cur else cur ++ [c]) rest

/-- The name that the target `t` of the symbolic link with the name `k` leads
to: a rooted target is walked from the root, another one from the directory of
the link. -/
def resolveLink (fs : FS) (k : Key) (t : Str) : Except Errno Key :=
  if t = [] then .error Errno.ENOENT
  else walkFrom fs (if isRooted t then [[]] else k.dropLast) (rawElems t)

/-- The system call `stat` on a name: follows symbolic links in the last position,
`fuel` of them at most. -/
def statFrom (fs : FS) : Nat → Key → Except Errno Node
  | fuel, k =>
    match lstat fs k with
    | .error e => .error e
    | .ok (Node.symlink t) =>
      match fuel with
      | 0 => .error Errno.ELOOP
      | n + 1 =>
        match resolveLink fs k t with
        | .error e => .error e
        | .ok k1 => statFrom fs n k1
    | .ok n => .ok n

/-- The number of symbolic links that one path resolution follows at most. -/
def maxSymlinks : Nat := 40

/-- Go `os.Stat`. -/
def Stat (fs : FS) (path : Str) : Except Errno Node := statFrom fs maxSymlinks (pathKey path)

/-- The names of the entries of the directory `k`. -/
def childNames (fs : FS) (k : Key) : List Str :=
  fs.filterMap fun e =>
    match e.1.getLast? with
    | some name =>
      if e.1.dropLast = k ∧ name ≠ [] ∧ byteLen name ≤ nameMax then some name else none
    | none => none

/-- Go `os.ReadDir`: the names of the entries of a directory, sorted by name. -/
def ReadDir (fs : FS) (path : Str) : Except Errno (List Str) :=
  let k := pathKey path
  match checkKey k with
  | some e => .error e
  | none =>
    match walk fs k with
    | some e => .error e
    | none =>
      match nodeAt fs k with
      | none => .error (absent k)
      | some Node.dir => .ok ((childNames fs k).dedup.insertionSort Ascending)
      | some _ => .error Errno.ENOTDIR

/-- Makes every name of the list a directory, in order: an existing directory is
kept, a missing one is created, anything else stops the run with an error. -/
def mkdirs (fs : FS) : List Key → Option Errno × FS
  | [] => (none, fs)
  | k :: ks =>
    match checkKey k with
    | some e => (some e, fs)
    | none =>
      match nodeAt fs k with
      | some Node.dir => mkdirs fs ks
      | none =>
        if nameOk k then mkdirs ((k, Node.dir) :: fs) ks else (some Errno.ENAMETOOLONG, fs)
      | some _ => (some Errno.ENOTDIR, fs)

/-- Go `os.MkdirAll`: creates the directory `path` along with any necessary
parents; a path that is already a directory is left alone. -/
def MkdirAll (fs : FS) (path : Str) : Option Errno × FS :=
  mkdirs fs (pathKey path).inits.tail

/-- Go `os.RemoveAll`: removes `path` and any children it contains; a path that
does not exist is no error. -/
def RemoveAll (fs : FS) (path : Str) : Option Errno × FS :=
  let k := pathKey path
  match checkKey k with
  | some e => (some e, fs)
  | none =>
    match walk fs k with
    | some Errno.ENOENT => (none, fs)
    | some e => (some e, fs)
    | none =>
      if nameOk k then (none, fs.filter fun e => !(k.isPrefixOf e.1))
      else (some Errno.ENAMETOOLONG, fs)

/-- Go `os.Symlink`: creates `newname` as a symbolic link to `oldname`.  A zero
byte in either string is `EINVAL`, an empty target `ENOENT`, a target or a
path of `PATH_MAX` bytes or more `ENAMETOOLONG`. -/
def Symlink (fs : FS) (oldname newname : Str) : Option Errno × FS :=
  let k := pathKey newname
  if nul ∈ oldname ∨ k.any (fun c => decide (nul ∈ c)) then (some Errno.EINVAL, fs)
  else if oldname = [] then (some Errno.ENOENT, fs)
  else if pathMax ≤ byteLen oldname then (some Errno.ENAMETOOLONG, fs)
  else
    match checkKey k with
    | some e => (some e, fs)
    | none =>
      match walk fs k with
      | some e => (some e, fs)
      | none =>
        match nodeAt fs k with
        | some _ => (some Errno.EEXIST, fs)
        | none =>
          if nameOk k then (none, (k, Node.symlink oldname) :: fs)
          else (some Errno.ENAMETOOLONG, fs)

/-- The system call `open` with `O_CREATE|O_WRONLY` on a name: follows symbolic
links in the last position, creates an empty regular file when there is none and
opens an existing one as it is.  Returns the name of the opened file. -/
def openFrom (fs : FS) : Nat → Key → Except Errno (Key × FS)
  | fuel, k =>
    match checkKey k with
    | some e => .error e
    | none =>
      match walk fs k with
      | some e => .error e
      | none =>
        match nodeAt fs k with
        | none =>
          if nameOk k then .ok (k, (k, Node.file []) :: fs) else .error Errno.ENAMETOOLONG
        | some (Node.file _) => .ok (k, fs)
        | some Node.dir => .error Errno.EISDIR
        | some (Node.symlink t) =>
          match fuel with
          | 0 => .error Errno.ELOOP
          | n + 1 =>
            match resolveLink fs k t with
            | .error e => .error e
            | .ok k1 => openFrom fs n k1

/-- Go `os.OpenFile(path, os.O_CREATE|os.O_WRONLY, 0755)`. -/
def OpenFile (fs : FS) (path : Str) : Except Errno (Key × FS) :=
  openFrom fs maxSymlinks (pathKey path)

/-- Writing the bytes `b` from offset 0 into a file that holds `old`: the bytes
of `old` beyond the length of `b` stay. -/
def overwrite (old b : List Nat) : List Nat := b ++ old.drop b.length

/-- The writes of `io.Copy` to the file opened under the name `k`, from its
start. -/
def writeFile (fs : FS) (k : Key) (b : List Nat) : FS :=
  fs.map fun e =>
    match e with
    | (k1, Node.file old) => if k1 = k then (k1, Node.file (overwrite old b)) else e
    | _ => e

/-! ## The environment of the process -/

/-- The answer of an HTTP server: the status code, the bytes that the body
delivers, and whether reading the body ends in an error after them. -/
structure Response where
  status : Nat
  body : List Nat
  bodyErr : Bool
  deriving DecidableEq, Repr

/-- What a run of the program sees and changes: the environment variables `HOME`
and `PATH`, `runtime.GOOS` and `runtime.GOARCH`, the answer of `http.Get` for
each URL (`none` for a transport failure), the file system, and the text
written to standard output. -/
structure World where
  homeEnv : Str
  pathEnv : Str
  goos : Str
  goarch : Str
  http : Str → Option Response
  fs : FS
  stdout : List Str

/-- What went wrong beneath an error of the program. -/
inductive Cause
  | errno (e : Errno)
  | homeNotDefined
  | transport
  | decode
  | read
  deriving DecidableEq, Repr

/-- An error value built by `fmt.Errorf`: the text before the wrapped error, and
the wrapped error if there is one. -/
structure Error where
  msg : Str
  cause : Option Cause
  deriving DecidableEq, Repr

/-- Go `os.UserHomeDir` on Unix: the value of `$HOME`, an error when it is empty. -/
def UserHomeDir (w : World) : Except Cause Str :=
  if w.homeEnv = [] then .error Cause.homeNotDefined else .ok w.homeEnv

/-- Go `fmt.Printf` to standard output. -/
def printf (w : World) (text : Str) : World := { w with stdout := w.stdout ++ [text] }

/-- The entry `Release` of the release list: its field `tag_name`. -/
structure Release where
  TagName : Str
  deriving DecidableEq, Repr

/-! ## Package `internal/version` -/

/-- The function `isKubeversionInPath`: whether kubeversion's bin directory is an
entry of `PATH`. -/
def isKubeversionInPath (w : World) : Bool :=
  match UserHomeDir w with
  | .error _ => false
  | .ok homeDir =>
    let kubeversionBin := Join [homeDir, ".kubeversion".toList, "bin".toList]
    let paths := Split w.pathEnv ':'
    paths.any fun path => decide (path = kubeversionBin)

/-- The function `fetchAvailableVersions`.  The outcome of
`json.NewDecoder(resp.Body).Decode(&releases)` on a response is the parameter
`decode` (`none` when decoding fails). -/
def fetchAvailableVersions (decode : Response → Option (List Release)) (w : World) :
    Except Error (List Str) :=
  match w.http "https://api.github.com/repos/kubernetes/kubernetes/releases".toList with
  | none => .error ⟨"failed to fetch versions".toList, some Cause.transport⟩
  | some resp =>
    if resp.status ≠ 200 then
      .error ⟨"failed to fetch versions: HTTP ".toList ++ (Nat.repr resp.status).toList, none⟩
    else
      match decode resp with
      | none => .error ⟨"failed to decode versions".toList, some Cause.decode⟩
      | some releases =>
        let versions := (releases.filter fun release => HasPrefix release.TagName "v".toList).map
          fun release => release.TagName
        .ok (versions.insertionSort Descending)

/-- The function `getInstalledVersions`.  The result map is the list of its keys. -/
def getInstalledVersions (w : World) : Except Error (List Str) :=
  match UserHomeDir w with
  | .error c => .error ⟨"failed to get home directory".toList, some c⟩
  | .ok homeDir =>
    let kubectlDir := Join [homeDir, ".kubeversion".toList, "versions".toList]
    match ReadDir w.fs kubectlDir with
    | .error e =>
      if IsNotExist e then .ok []
      else .error ⟨"failed to read versions directory".toList, some (Cause.errno e)⟩
    | .ok entries => .ok (entries.map fun entry => TrimPrefix entry "kubectl-".toList)

/-- The three lines that `SwitchVersion` prints when `PATH` lacks the bin directory. -/
def pathAdvice (w : World) : World :=
  printf (printf (printf w
    "\nIMPORTANT: To use kubeversion's kubectl, add this to your shell config (~/.bashrc, ~/.zshrc, etc.):\n".toList)
    "export PATH=\"$HOME/.kubeversion/bin:$PATH\"\n".toList)
    "Then restart your shell or run: source ~/.bashrc (or ~/.zshrc)\n\n".toList

/-- The message of the error of `SwitchVersion` for a version without artifact. -/
def notInstalledMsg (version : Str) : Str :=
  "version ".toList ++ version ++ " is not installed. Use 'kubeversion install ".toList
    ++ version ++ "' first".toList

/-- The function `SwitchVersion`: the error it returns, if any, and the world it
leaves. -/
def SwitchVersion (w : World) (version : Str) : Option Error × World :=
  let version := normalize version
  match UserHomeDir w with
  | .error c => (some ⟨"failed to get home directory".toList, some c⟩, w)
  | .ok homeDir =>
    let kubectlDir := Join [homeDir, ".kubeversion".toList, "versions".toList]
    let versionPath := Join [kubectlDir, "kubectl-".toList ++ version]
    if (match Stat w.fs versionPath with
        | .error e => IsNotExist e
        | .ok _ => false) then
      (some ⟨notInstalledMsg version, none⟩, w)
    else
      let binDir := Join [homeDir, ".kubeversion".toList, "bin".toList]
      match MkdirAll w.fs binDir with
      | (some e, fs1) =>
        (some ⟨"failed to create bin directory".toList, some (Cause.errno e)⟩, { w with fs := fs1 })
      | (none, fs1) =>
        let kubectlPath := Join [binDir, "kubectl".toList]
        match RemoveAll fs1 kubectlPath with
        | (some e, fs2) =>
          (some ⟨"failed to remove existing kubectl".toList, some (Cause.errno e)⟩,
            { w with fs := fs2 })
        | (none, fs2) =>
          match Symlink fs2 versionPath kubectlPath with
          | (some e, fs3) =>
            (some ⟨"failed to create symlink".toList, some (Cause.errno e)⟩, { w with fs := fs3 })
          | (none, fs3) =>
            let w3 : World := { w with fs := fs3 }
            let w4 := if !isKubeversionInPath w3 then pathAdvice w3 else w3
            (none, printf w4 ("Successfully switched to kubectl ".toList ++ version ++ "\n".toList))

/-! ## Package `internal/download` -/

/-- The constant `downloadURLFormat` filled in by `fmt.Sprintf`. -/
def downloadURL (version goos goarch : Str) : Str :=
  "https://dl.k8s.io/release/".toList ++ version ++ "/bin/".toList ++ goos ++ "/".toList
    ++ goarch ++ "/kubectl".toList

/-- The function `InstallVersion`: the error it returns, if any, and the world it
leaves.  The progress bar is not part of the world. -/
def InstallVersion (w : World) (version : Str) : Option Error × World :=
  let version := normalize version
  match UserHomeDir w with
  | .error c => (some ⟨"failed to get home directory".toList, some c⟩, w)
  | .ok homeDir =>
    let kubectlDir := Join [homeDir, ".kubeversion".toList, "versions".toList]
    match MkdirAll w.fs kubectlDir with
    | (some e, fs1) =>
      (some ⟨"failed to create kubectl directory".toList, some (Cause.errno e)⟩,
        { w with fs := fs1 })
    | (none, fs1) =>
      match w.http (downloadURL version w.goos w.goarch) with
      | none => (some ⟨"failed to download kubectl".toList, some Cause.transport⟩, { w with fs := fs1 })
      | some resp =>
        if resp.status ≠ 200 then
          (some ⟨"failed to download kubectl: HTTP ".toList ++ (Nat.repr resp.status).toList, none⟩,
            { w with fs := fs1 })
        else
          let destPath := Join [kubectlDir, "kubectl-".toList ++ version]
          match OpenFile fs1 destPath with
          | .error e =>
            (some ⟨"failed to create kubectl file".toList, some (Cause.errno e)⟩,
              { w with fs := fs1 })
          | .ok (out, fs2) =>
            let fs3 := writeFile fs2 out resp.body
            if resp.bodyErr then
              (some ⟨"failed to save kubectl".toList, some Cause.read⟩, { w with fs := fs3 })
            else (none, { w with fs := fs3 })

/-! ## Sample worlds -/

/-- An HTTP client without network: every request fails in transport. -/
def offline : Str → Option Response := fun _ => none

/-- The directories `/home`, `/home/u`, `/home/u/.kubeversion` and the version
store `/home/u/.kubeversion/versions`. -/
def storeDirs : FS :=
  [ ([[], "home".toList], Node.dir),
    ([[], "home".toList, "u".toList], Node.dir),
    ([[], "home".toList, "u".toList, ".kubeversion".toList], Node.dir),
    ([[], "home".toList, "u".toList, ".kubeversion".toList, "versions".toList], Node.dir) ]

/-- The name of the entry `name` of the version store of the user `u`. -/
def storeEntry (name : Str) : Key :=
  [[], "home".toList, "u".toList, ".kubeversion".toList, "versions".toList, name]

/-- The name of the stable binary path of the user `u`. -/
def stableKey : Key :=
  [[], "home".toList, "u".toList, ".kubeversion".toList, "bin".toList, "kubectl".toList]

/-- The world of the user `u` with home `/home/u` on linux/amd64, with the given
file system and HTTP answers. -/
def worldOf (http : Str → Option Response) (fs : FS) : World :=
  { homeEnv := "/home/u".toList
    pathEnv := "/usr/bin:/home/u/.kubeversion/bin:/bin".toList
    goos := "linux".toList
    goarch := "amd64".toList
    http := http
    fs := fs
    stdout := [] }

/-- A fresh environment: the home directory exists, the version store does not. -/
def freshWorld : World :=
  worldOf offline [([[], "home".toList], Node.dir), ([[], "home".toList, "u".toList], Node.dir)]

/-- An environment in which `/home/u/.kubeversion/versions` is a regular file. -/
def blockedWorld : World :=
  worldOf offline
    [ ([[], "home".toList], Node.dir),
      ([[], "home".toList, "u".toList], Node.dir),
      ([[], "home".toList, "u".toList, ".kubeversion".toList], Node.dir),
      ([[], "home".toList, "u".toList, ".kubeversion".toList, "versions".toList], Node.file []) ]

/-- A version store that holds one regular file with the given name and content. -/
def storeWith (name : Str) (content : List Nat) : FS :=
  storeDirs ++ [(storeEntry name, Node.file content)]

/-- The store holds the file `kubectl-1.28.0`, a name without the tag marker. -/
def untaggedWorld : World := worldOf offline (storeWith "kubectl-1.28.0".toList [127, 69])

/-- The store holds the artifact `kubectl-v1.30.0`. -/
def taggedWorld : World := worldOf offline (storeWith "kubectl-v1.30.0".toList [127, 69])

/-- The store holds the artifact `kubectl-v1.29.0`. -/
def installedWorld : World := worldOf offline (storeWith "kubectl-v1.29.0".toList [127, 69])

/-- The store holds a file named `v1.29.0`, without the prefix `kubectl-`. -/
def strayWorld : World := worldOf offline (storeWith "v1.29.0".toList [127, 69])

/-! ## The paths of the layout -/

/-- The version store directory of the home `h`. -/
abbrev storeDirOf (h : Str) : Str := Join [h, ".kubeversion".toList, "versions".toList]

/-- The artifact path of the canonical version `v` under the home `h`. -/
abbrev artifactPathOf (h v : Str) : Str := Join [storeDirOf h, "kubectl-".toList ++ v]

/-- The bin directory of the home `h`. -/
abbrev binDirOf (h : Str) : Str := Join [h, ".kubeversion".toList, "bin".toList]

/-- The stable binary path of the home `h`. -/
abbrev stablePathOf (h : Str) : Str := Join [binDirOf h, "kubectl".toList]

/-- An HTTP server that answers the one URL `url` with status 200 and the body
`body`; every other request fails in transport. -/
def serving (url : Str) (body : List Nat) : Str → Option Response :=
  fun u => if u = url then some ⟨200, body, false⟩ else none

/-- A fresh environment whose server has the artifact of `v1.29.0`. -/
def downloadWorld : World :=
  worldOf (serving "https://dl.k8s.io/release/v1.29.0/bin/linux/amd64/kubectl".toList [127, 69])
    freshWorld.fs

/-- A fresh environment whose server answers the URL made from the version string
`v1.29.0/`. -/
def slashWorld : World :=
  worldOf (serving "https://dl.k8s.io/release/v1.29.0//bin/linux/amd64/kubectl".toList [127, 69])
    freshWorld.fs

/-- The store holds the artifact `kubectl-v1.29.0` with five bytes, and the
server has an artifact of two bytes for the same version. -/
def reinstallWorld : World :=
  worldOf (serving "https://dl.k8s.io/release/v1.29.0/bin/linux/amd64/kubectl".toList [9, 9])
    (storeWith "kubectl-v1.29.0".toList [1, 2, 3, 4, 5])

/-- The server of the release list answers with status 200. -/
def catalogWorld : World :=
  worldOf (serving "https://api.github.com/repos/kubernetes/kubernetes/releases".toList [91, 93])
    freshWorld.fs

/-- A decoder that reads the releases `v1.28.0`, `nightly`, `v1.30.0`, `v1.29.0`,
in this order. -/
def sampleDecode : Response → Option (List Release) :=
  fun _ => some [⟨"v1.28.0".toList⟩, ⟨"nightly".toList⟩, ⟨"v1.30.0".toList⟩, ⟨"v1.29.0".toList⟩]

/-- The store holds the artifact `kubectl-v1.30.0` and a file `notes.txt`. -/
def mixedWorld : World :=
  worldOf offline (storeWith "kubectl-v1.30.0".toList [127, 69] ++
    [(storeEntry "notes.txt".toList, Node.file [104, 105])])

/-- The store holds the artifact `kubectl-v1.29.0`, the bin directory exists and
the stable path is the link to the artifact. -/
def activeWorld : World :=
  worldOf offline (storeWith "kubectl-v1.29.0".toList [127, 69] ++
    [([[], "home".toList, "u".toList, ".kubeversion".toList, "bin".toList], Node.dir),
     (stableKey, Node.symlink "/home/u/.kubeversion/versions/kubectl-v1.29.0".toList)])

/-- A version string of 248 bytes: the marker `v` and 247 digits. -/
def longVersion : Str := 'v' :: List.replicate 247 '1'

/-- A version string with a zero byte. -/
def nulVersion : Str := "v1.29.0".toList ++ [nul]

/-- The store holds the artifact `kubectl-v1.29.0`, the bin directory exists and
the stable path is a regular file. -/
def staleWorld : World :=
  worldOf offline (storeWith "kubectl-v1.29.0".toList [127, 69] ++
    [([[], "home".toList, "u".toList, ".kubeversion".toList, "bin".toList], Node.dir),
     (stableKey, Node.file [35, 33])])

/-- A process whose `HOME` is the relative path `h`.  Under `h/.kubeversion` the
store holds `kubectl-v1.29.0` as a symbolic link with the target
`../bin/kubectl`, and the stable path `h/.kubeversion/bin/kubectl` is a regular
file. -/
def relativeWorld : World :=
  { homeEnv := "h".toList
    pathEnv := "/usr/bin:/bin".toList
    goos := "linux".toList
    goarch := "amd64".toList
    http := offline
    fs :=
      [ (["h".toList], Node.dir),
        (["h".toList, ".kubeversion".toList], Node.dir),
        (["h".toList, ".kubeversion".toList, "versions".toList], Node.dir),
        (["h".toList, ".kubeversion".toList, "bin".toList], Node.dir),
        (["h".toList, ".kubeversion".toList, "versions".toList, "kubectl-v1.29.0".toList],
          Node.symlink "../bin/kubectl".toList),
        (["h".toList, ".kubeversion".toList, "bin".toList, "kubectl".toList],
          Node.file [127, 69]) ]
    stdout := [] }


/-- A directory name of 252 bytes: 63 characters of four bytes each. -/
def deepName : Str := List.replicate 63 (Char.ofNat 66000)

/-- The name of a home directory sixteen such directories below the root. -/
def deepKey : Key := [] :: List.replicate 16 deepName

/-- The path of that home directory, 4048 bytes long. -/
def deepHome : Str := '/' :: joinSep (List.replicate 16 deepName)

/-- A process whose home is `deepHome`, with an empty version store: the path of
the store has 4070 bytes. -/
def deepWorld : World :=
  { homeEnv := deepHome
    pathEnv := "/usr/bin:/bin".toList
    goos := "linux".toList
    goarch := "amd64".toList
    http := offline
    fs := ((deepKey.inits.drop 2).map fun k => (k, Node.dir)) ++
      [ (deepKey ++ [".kubeversion".toList], Node.dir),
        (deepKey ++ [".kubeversion".toList, "versions".toList], Node.dir) ]
    stdout := [] }

/-- A version string of 21 bytes. -/
def wideVersion : Str := "v1.29.0-rc.1.20240101".toList


/-! ## Predicates of the proofs -/

/-- A path element that `Clean` keeps as it is: non-empty, without separator,
neither `.` nor `..`. -/
def Plain (c : Str) : Prop := '/' ∉ c ∧ c ≠ [] ∧ c ≠ dot ∧ c ≠ dotdot

/-- The shape of the stack of `Clean`: elements are non-empty, without separator
and not `.`; below a `..` there are only `..`, and a rooted path has none. -/
def GoodStack (rooted : Bool) : List Str → Prop
  | [] => True
  | t :: rest =>
    ('/' ∉ t ∧ t ≠ [] ∧ t ≠ dot) ∧
    (t = dotdot → rooted = false ∧ ∀ u ∈ rest.head?, u = dotdot) ∧
    GoodStack rooted rest

/-! ## Lemmas on strings -/

theorem Split_ne_nil (s : Str) (sep : Char) : Split s sep ≠ [] := by
  induction s with
  | nil => simp [Split]
  | cons c cs ih =>
    unfold Split
    split_ifs with h
    · simp
    · cases hs : Split cs sep with
      | nil => exact absurd hs ih
      | cons seg segs => simp

theorem Split_append (a b : Str) (sep : Char) :
    Split (a ++ sep :: b) sep = Split a sep ++ Split b sep := by
  induction a with
  | nil => simp [Split]
  | cons c cs ih =>
    by_cases h : c = sep
    · simp [Split, h, ih]
    · cases hs : Split cs sep with
      | nil => exact absurd hs (Split_ne_nil cs sep)
      | cons seg segs => simp [Split, h, ih, hs]

theorem Split_of_not_mem (s : Str) (sep : Char) (h : sep ∉ s) : Split s sep = [s] := by
  induction s with
  | nil => simp [Split]
  | cons c cs ih =>
    have hc : c ≠ sep := fun e => h (by simp [e])
    have hcs : sep ∉ cs := fun e => h (by simp [e])
    simp [Split, hc, ih hcs]

/-- Joining the segments of `Split` with the separator gives the string back. -/
theorem Split_join (s : Str) (sep : Char) : List.intercalate [sep] (Split s sep) = s := by
  induction s with
  | nil => simp [Split, List.intercalate]
  | cons c cs ih =>
    by_cases h : c = sep
    · cases hs : Split cs sep with
      | nil => exact absurd hs (Split_ne_nil cs sep)
      | cons seg segs =>
        rw [hs] at ih
        simp [Split, h, hs, List.intercalate] at ih ⊢
        exact ih
    · cases hs : Split cs sep with
      | nil => exact absurd hs (Split_ne_nil cs sep)
      | cons seg segs =>
        rw [hs] at ih
        cases segs with
        | nil => simpa [Split, h, hs, List.intercalate] using ih
        | cons s2 ss => simpa [Split, h, hs, List.intercalate] using ih

/-- No segment of `Split` contains the separator. -/
theorem Split_no_sep (s : Str) (sep : Char) : ∀ seg ∈ Split s sep, sep ∉ seg := by
  induction s with
  | nil => simp [Split]
  | cons c cs ih =>
    by_cases h : c = sep
    · simp only [Split, h, if_true]
      intro seg hseg
      rcases List.mem_cons.1 hseg with rfl | h2
      · simp
      · exact ih seg h2
    · cases hs : Split cs sep with
      | nil => exact absurd hs (Split_ne_nil cs sep)
      | cons seg0 segs =>
        rw [hs] at ih
        simp only [Split, h, if_false, hs]
        intro seg hseg
        rcases List.mem_cons.1 hseg with rfl | h2
        · have := ih seg0 (by simp)
          simp [this, Ne.symm h]
        · exact ih seg (by simp [h2])

/-! ## Lemmas on `filepath.Clean` and `filepath.Join` -/

theorem goodStack_cleanStep (rooted : Bool) (st : List Str) (c : Str)
    (hst : GoodStack rooted st) (hc : '/' ∉ c) : GoodStack rooted (cleanStep rooted st c) := by
  unfold cleanStep
  by_cases h1 : c = [] ∨ c = dot
  · rw [if_pos h1]
    exact hst
  · rw [if_neg h1]
    by_cases h2 : c = dotdot
    · rw [if_pos h2]
      cases st with
      | nil =>
        cases rooted
        · simp [GoodStack, dotdot, dot]
        · simp [GoodStack]
      | cons t rest =>
        show GoodStack rooted (if t = dotdot then dotdot :: t :: rest else rest)
        by_cases h3 : t = dotdot
        · rw [if_pos h3]
          refine ⟨⟨by simp [dotdot], by simp [dotdot], by simp [dotdot, dot]⟩, ?_, hst⟩
          intro _
          exact ⟨(hst.2.1 h3).1, by simp [h3]⟩
        · rw [if_neg h3]
          exact hst.2.2
    · rw [if_neg h2]
      push_neg at h1
      exact ⟨⟨hc, h1.1, h1.2⟩, fun e => absurd e h2, hst⟩

theorem goodStack_foldl (rooted : Bool) (cs : List Str) (st : List Str)
    (hst : GoodStack rooted st) (hcs : ∀ c ∈ cs, '/' ∉ c) :
    GoodStack rooted (cs.foldl (cleanStep rooted) st) := by
  induction cs generalizing st with
  | nil => exact hst
  | cons c cs ih =>
    simp only [List.foldl_cons]
    exact ih _ (goodStack_cleanStep rooted st c hst (hcs c (by simp)))
      (fun d hd => hcs d (by simp [hd]))

/-- Scanning the elements of a good stack again rebuilds it. -/
theorem foldl_reverse_goodStack (rooted : Bool) (st : List Str) (hst : GoodStack rooted st) :
    st.reverse.foldl (cleanStep rooted) [] = st := by
  induction st with
  | nil => rfl
  | cons t rest ih =>
    rw [List.reverse_cons, List.foldl_append, ih hst.2.2]
    simp only [List.foldl_cons, List.foldl_nil]
    unfold cleanStep
    have h1 : ¬ (t = [] ∨ t = dot) := by
      intro h
      rcases h with h | h
      · exact hst.1.2.1 h
      · exact hst.1.2.2 h
    rw [if_neg h1]
    by_cases h2 : t = dotdot
    · rw [if_pos h2]
      obtain ⟨hr, hrest⟩ := hst.2.1 h2
      cases rest with
      | nil => simp [hr, h2]
      | cons u us =>
        have hu : u = dotdot := hrest u (by simp)
        simp [hu, h2]
    · rw [if_neg h2]

theorem goodStack_no_sep (rooted : Bool) (st : List Str) (hst : GoodStack rooted st) :
    ∀ e ∈ st, '/' ∉ e := by
  induction st with
  | nil => simp
  | cons t rest ih =>
    intro e he
    rcases List.mem_cons.1 he with rfl | h
    · exact hst.1.1
    · exact ih hst.2.2 e h

theorem goodStack_ne_nil (rooted : Bool) (st : List Str) (hst : GoodStack rooted st) :
    ∀ e ∈ st, e ≠ [] := by
  induction st with
  | nil => simp
  | cons t rest ih =>
    intro e he
    rcases List.mem_cons.1 he with rfl | h
    · exact hst.1.2.1
    · exact ih hst.2.2 e h

/-- The stack that `Clean` ends with is a good one. -/
theorem goodStack_scan (path : Str) :
    GoodStack (isRooted path) ((Split path '/').foldl (cleanStep (isRooted path)) []) :=
  goodStack_foldl _ _ _ trivial (Split_no_sep path '/')

theorem Split_joinSep (es : List Str) (hne : es ≠ []) (hes : ∀ e ∈ es, '/' ∉ e) :
    Split (joinSep es) '/' = es := by
  induction es with
  | nil => exact absurd rfl hne
  | cons e rest ih =>
    cases rest with
    | nil => simpa [joinSep] using Split_of_not_mem e '/' (hes e (by simp))
    | cons e2 r2 =>
      have h1 : joinSep (e :: e2 :: r2) = e ++ '/' :: joinSep (e2 :: r2) := rfl
      rw [h1, Split_append, Split_of_not_mem e '/' (hes e (by simp)),
        ih (by simp) (fun x hx => hes x (by simp [hx]))]
      rfl

theorem isRooted_append (x y : Str) (hx : x ≠ []) : isRooted (x ++ y) = isRooted x := by
  cases x with
  | nil => exact absurd rfl hx
  | cons c cs => rfl

theorem cleanElems_snoc (x c : Str) (hx : x ≠ []) (hc : Plain c) :
    cleanElems (x ++ '/' :: c) = cleanElems x ++ [c] := by
  unfold cleanElems
  rw [isRooted_append x _ hx, Split_append, Split_of_not_mem c '/' hc.1, List.foldl_append]
  simp only [List.foldl_cons, List.foldl_nil]
  have h1 : ¬ (c = [] ∨ c = dot) := by
    intro h
    rcases h with h | h
    · exact hc.2.1 h
    · exact hc.2.2.1 h
  unfold cleanStep
  rw [if_neg h1, if_neg hc.2.2.2, List.reverse_cons]

theorem pathKey_snoc (x c : Str) (hx : x ≠ []) (hc : Plain c) :
    pathKey (x ++ '/' :: c) = pathKey x ++ [c] := by
  unfold pathKey
  rw [isRooted_append x _ hx, cleanElems_snoc x c hx hc, List.append_assoc]

theorem scan_joinSep (rooted : Bool) (st : List Str) (hst : GoodStack rooted st) :
    (Split (joinSep st.reverse) '/').foldl (cleanStep rooted) [] = st := by
  cases st with
  | nil => simp [joinSep, Split, cleanStep]
  | cons t rest =>
    rw [Split_joinSep _ (by simp)
      (fun e he => goodStack_no_sep rooted _ hst e (List.mem_reverse.1 he))]
    exact foldl_reverse_goodStack rooted _ hst

theorem head?_joinSep (e : Str) (rest : List Str) (he : e ≠ []) :
    (joinSep (e :: rest)).head? = e.head? := by
  cases e with
  | nil => exact absurd rfl he
  | cons c cs =>
    cases rest with
    | nil => rfl
    | cons e2 r2 => rfl

theorem isRooted_joinSep_goodStack (rooted : Bool) (st : List Str) (hst : GoodStack rooted st) :
    isRooted (joinSep st.reverse) = false := by
  cases hr : st.reverse with
  | nil => rfl
  | cons e rest =>
    have hmem : e ∈ st := List.mem_reverse.1 (by rw [hr]; simp)
    have hne := goodStack_ne_nil rooted st hst e hmem
    have hns := goodStack_no_sep rooted st hst e hmem
    unfold isRooted
    rw [head?_joinSep e rest hne]
    cases e with
    | nil => exact absurd rfl hne
    | cons c cs =>
      have : c ≠ '/' := fun h => hns (by simp [h])
      simp [this]

/-- Cleaning a path keeps whether it is rooted. -/
theorem isRooted_Clean (s : Str) : isRooted (Clean s) = isRooted s := by
  unfold Clean
  by_cases hr : isRooted s = true
  · rw [if_pos hr, hr]
    rfl
  · rw [if_neg hr]
    have hf : isRooted s = false := by simpa using hr
    rw [hf]
    split_ifs with he
    · rfl
    · unfold cleanElems
      rw [hf]
      exact isRooted_joinSep_goodStack false _ (by have := goodStack_scan s; rwa [hf] at this)

/-- Cleaning is idempotent on the elements of a path. -/
theorem cleanElems_Clean (s : Str) : cleanElems (Clean s) = cleanElems s := by
  have hgood := goodStack_scan s
  have hsc := scan_joinSep (isRooted s) _ hgood
  unfold cleanElems
  rw [isRooted_Clean]
  congr 1
  unfold Clean
  by_cases hr : isRooted s = true
  · rw [if_pos hr]
    unfold cleanElems
    have : Split ('/' :: joinSep
        (List.foldl (cleanStep (isRooted s)) [] (Split s '/')).reverse) '/'
        = [] :: Split (joinSep (List.foldl (cleanStep (isRooted s)) [] (Split s '/')).reverse) '/' := by
      simp [Split]
    rw [this, List.foldl_cons]
    have h0 : cleanStep (isRooted s) [] [] = [] := by simp [cleanStep]
    rw [h0]
    exact hsc
  · rw [if_neg hr]
    split_ifs with he
    · have he2 : List.foldl (cleanStep (isRooted s)) [] (Split s '/') = [] := by
        unfold cleanElems at he
        simpa using he
      rw [he2]
      simp [Split, dot, cleanStep]
    · unfold cleanElems
      exact hsc

theorem pathKey_Clean (s : Str) : pathKey (Clean s) = pathKey s := by
  unfold pathKey
  rw [isRooted_Clean, cleanElems_Clean]

theorem Clean_ne_nil (s : Str) : Clean s ≠ [] := by
  unfold Clean
  split_ifs with h1 h2
  · simp
  · simp [dot]
  · intro h
    apply h2
    cases hc : cleanElems s with
    | nil => rfl
    | cons e rest =>
      exfalso
      have hgood := goodStack_scan s
      have hmem : e ∈ List.foldl (cleanStep (isRooted s)) [] (Split s '/') := by
        apply List.mem_reverse.1
        unfold cleanElems at hc
        rw [hc]
        simp
      have hne := goodStack_ne_nil _ _ hgood e hmem
      rw [hc] at h
      cases e with
      | nil => exact hne rfl
      | cons c cs =>
        cases rest with
        | nil => simp [joinSep] at h
        | cons e2 r2 => simp [joinSep] at h

theorem Join_two (x c : Str) (hx : x ≠ []) : Join [x, c] = Clean (x ++ '/' :: c) := by
  cases x with
  | nil => exact absurd rfl hx
  | cons a as => rfl

theorem Join_three (h a b : Str) (hh : h ≠ []) :
    Join [h, a, b] = Clean ((h ++ '/' :: a) ++ '/' :: b) := by
  cases h with
  | nil => exact absurd rfl hh
  | cons c cs =>
    show Clean (joinSep [c :: cs, a, b]) = _
    congr 1
    simp [joinSep]

theorem pathKey_Join_two (x c : Str) (hx : x ≠ []) (hc : Plain c) :
    pathKey (Join [x, c]) = pathKey x ++ [c] := by
  rw [Join_two x c hx, pathKey_Clean, pathKey_snoc x c hx hc]

theorem pathKey_Join_three (h a b : Str) (hh : h ≠ []) (ha : Plain a) (hb : Plain b) :
    pathKey (Join [h, a, b]) = pathKey h ++ [a, b] := by
  rw [Join_three h a b hh, pathKey_Clean, pathKey_snoc _ b (by simp) hb, pathKey_snoc h a hh ha]
  simp

theorem Join_two_ne_nil (x c : Str) (hx : x ≠ []) : Join [x, c] ≠ [] := by
  rw [Join_two x c hx]
  exact Clean_ne_nil _

theorem Join_three_ne_nil (h a b : Str) (hh : h ≠ []) : Join [h, a, b] ≠ [] := by
  rw [Join_three h a b hh]
  exact Clean_ne_nil _

theorem plain_kubeversion : Plain ".kubeversion".toList := by
  simp [Plain, dot, dotdot]

theorem plain_versions : Plain "versions".toList := by
  simp [Plain, dot, dotdot]

theorem plain_bin : Plain "bin".toList := by
  simp [Plain, dot, dotdot]

theorem plain_kubectl : Plain "kubectl".toList := by
  simp [Plain, dot, dotdot]

/-- The file name of an artifact is a plain path element when the version has no
separator. -/
theorem plain_artifact (v : Str) (hv : '/' ∉ v) : Plain ("kubectl-".toList ++ v) := by
  refine ⟨?_, ?_, ?_, ?_⟩
  · simpa using hv
  · simp
  · simp [dot]
  · simp [dotdot]

theorem normalize_no_sep (v : Str) (hv : '/' ∉ v) : '/' ∉ normalize v := by
  unfold normalize
  split_ifs
  · simpa [versionPrefix] using hv
  · exact hv

/-! ## Lemmas on the file system -/

theorem checkDirs_append (fs : FS) (l1 l2 : List Key) :
    checkDirs fs (l1 ++ l2) =
      match checkDirs fs l1 with
      | some e => some e
      | none => checkDirs fs l2 := by
  induction l1 with
  | nil => rfl
  | cons a as ih =>
    simp only [List.cons_append, checkDirs]
    cases h : nodeAt fs a with
    | none => rfl
    | some n =>
      cases n with
      | dir => simpa using ih
      | file c => rfl
      | symlink t => rfl

theorem inits_snoc (k : Key) (x : Str) : (k ++ [x]).inits = k.inits ++ [k ++ [x]] := by
  rw [List.inits_append]
  simp [List.inits]

theorem inits_eq_dropLast_snoc (k : Key) : k.inits = k.inits.dropLast ++ [k] := by
  induction k using List.reverseRecOn with
  | nil => simp
  | append_singleton l a _ =>
    rw [inits_snoc]
    simp

theorem walk_snoc (fs : FS) (k : Key) (x : Str) :
    walk fs (k ++ [x]) =
      match walk fs k with
      | some e => some e
      | none => checkDirs fs [k] := by
  unfold walk
  rw [inits_snoc, List.dropLast_concat]
  conv_lhs => rw [inits_eq_dropLast_snoc k]
  exact checkDirs_append fs _ _

theorem lookup_mem (fs : FS) (k : Key) (n : Node) (h : fs.lookup k = some n) : (k, n) ∈ fs := by
  induction fs with
  | nil => simp at h
  | cons e rest ih =>
    obtain ⟨k1, n1⟩ := e
    rw [List.lookup_cons] at h
    by_cases hk : k = k1
    · subst hk
      simp at h
      simp [h]
    · have : (k == k1) = false := by simpa using hk
      rw [this] at h
      exact List.mem_cons_of_mem _ (ih h)

theorem snoc_ne_base (k : Key) (x : Str) (hx : x ≠ []) : ¬ (k ++ [x] = [] ∨ k ++ [x] = [[]]) := by
  intro h
  rcases h with h | h
  · simp at h
  · cases k with
    | nil => simp at h; exact hx h
    | cons a as => cases as <;> simp at h

theorem nodeAt_cons_ne (fs : FS) (k k1 : Key) (n : Node) (h : k1 ≠ k) :
    nodeAt ((k, n) :: fs) k1 = nodeAt fs k1 := by
  unfold nodeAt
  rw [List.lookup_cons]
  have : (k1 == k) = false := by simpa using h
  rw [this]

theorem nodeAt_cons_self (fs : FS) (k : Key) (n : Node) (h : ¬ (k = [] ∨ k = [[]]))
    (hn : nameOk k = true) : nodeAt ((k, n) :: fs) k = some n := by
  unfold nodeAt
  rw [if_neg h, if_pos hn, List.lookup_cons]
  simp

theorem lookup_filter (fs : FS) (p : Key → Bool) (k : Key) :
    (fs.filter fun e => p e.1).lookup k = if p k then fs.lookup k else none := by
  induction fs with
  | nil => simp
  | cons e rest ih =>
    obtain ⟨k1, n1⟩ := e
    by_cases hp : p k1 = true
    · rw [List.filter_cons_of_pos (by simpa using hp), List.lookup_cons, List.lookup_cons, ih]
      by_cases hk : k = k1
      · subst hk
        simp [hp]
      · have : (k == k1) = false := by simpa using hk
        rw [this]
    · rw [List.filter_cons_of_neg (by simpa using hp), List.lookup_cons, ih]
      by_cases hk : k = k1
      · subst hk
        simp [hp]
      · have : (k == k1) = false := by simpa using hk
        rw [this]

theorem nodeAt_filter_pos (fs : FS) (p : Key → Bool) (k : Key) (h : p k = true) :
    nodeAt (fs.filter fun e => p e.1) k = nodeAt fs k := by
  unfold nodeAt
  rw [lookup_filter, if_pos h]

theorem checkDirs_of_dirs (fs : FS) (l : List Key) (h : ∀ k ∈ l, nodeAt fs k = some Node.dir) :
    checkDirs fs l = none := by
  induction l with
  | nil => rfl
  | cons a as ih =>
    unfold checkDirs
    rw [h a (by simp)]
    exact ih (fun k hk => h k (by simp [hk]))

theorem checkDirs_congr (fs fs1 : FS) (l : List Key) (h : ∀ k ∈ l, nodeAt fs1 k = nodeAt fs k) :
    checkDirs fs1 l = checkDirs fs l := by
  induction l with
  | nil => rfl
  | cons a as ih =>
    unfold checkDirs
    rw [h a (by simp), ih (fun k hk => h k (by simp [hk]))]

theorem dirs_of_checkDirs (fs : FS) (l : List Key) (h : checkDirs fs l = none) :
    ∀ k ∈ l, nodeAt fs k = some Node.dir := by
  induction l with
  | nil => simp
  | cons a as ih =>
    unfold checkDirs at h
    cases hn : nodeAt fs a with
    | none => rw [hn] at h; simp at h
    | some n =>
      rw [hn] at h
      cases n with
      | dir =>
        intro k hk
        rcases List.mem_cons.1 hk with rfl | hk2
        · exact hn
        · exact ih h k hk2
      | file c => simp at h
      | symlink t => simp at h

theorem writeFile_cons (rest : FS) (k1 : Key) (n1 : Node) (out : Key) (b : List Nat) :
    writeFile ((k1, n1) :: rest) out b =
      (k1, match n1 with
        | Node.file old => if k1 = out then Node.file (overwrite old b) else n1
        | _ => n1) :: writeFile rest out b := by
  cases n1 with
  | file old =>
    unfold writeFile
    rw [List.map_cons]
    by_cases ho : k1 = out
    · simp [ho]
    · simp [ho]
  | dir => rfl
  | symlink t => rfl

theorem lookup_writeFile (fs : FS) (out : Key) (b : List Nat) (k : Key) :
    (writeFile fs out b).lookup k =
      (fs.lookup k).map fun n =>
        match n with
        | Node.file old => if k = out then Node.file (overwrite old b) else n
        | _ => n := by
  induction fs with
  | nil => rfl
  | cons e rest ih =>
    obtain ⟨k1, n1⟩ := e
    rw [writeFile_cons, List.lookup_cons, List.lookup_cons, ih]
    by_cases hk : k = k1
    · subst hk
      simp
    · have hne : (k == k1) = false := by simpa using hk
      rw [hne]

theorem nodeAt_writeFile_dir (fs : FS) (out : Key) (b : List Nat) (k : Key)
    (h : nodeAt fs k = some Node.dir) : nodeAt (writeFile fs out b) k = some Node.dir := by
  unfold nodeAt at h ⊢
  split_ifs at h ⊢ with hb
  · rfl
  · rw [lookup_writeFile, h]
    rfl

theorem nodeAt_writeFile_some (fs : FS) (out : Key) (b : List Nat) (k : Key) (n : Node)
    (h : nodeAt fs k = some n) : ∃ m, nodeAt (writeFile fs out b) k = some m := by
  unfold nodeAt at h ⊢
  split_ifs at h ⊢ with hb
  · exact ⟨_, rfl⟩
  · rw [lookup_writeFile, h]
    exact ⟨_, rfl⟩

theorem isPrefixOf_self (k : Key) : k.isPrefixOf k = true :=
  List.isPrefixOf_iff_prefix.2 (List.prefix_refl k)

theorem not_snoc_prefix (k b : Key) (x : Str) (hk : k <+: b) :
    (b ++ [x]).isPrefixOf k = false := by
  cases hp : (b ++ [x]).isPrefixOf k with
  | false => rfl
  | true =>
    have h1 := (List.isPrefixOf_iff_prefix.1 hp).length_le
    have h2 := hk.length_le
    simp at h1
    omega


theorem nameOk_snoc (k : Key) (x : Str) : nameOk (k ++ [x]) = decide (byteLen x ≤ nameMax) := by
  unfold nameOk
  simp

theorem nodeAt_none_not_base (fs : FS) (k : Key) (h : nodeAt fs k = none) :
    ¬ (k = [] ∨ k = [[]]) := by
  intro hb
  unfold nodeAt at h
  rw [if_pos hb] at h
  simp at h

theorem nodeAt_some_nameOk (fs : FS) (k : Key) (n : Node) (hb : ¬ (k = [] ∨ k = [[]]))
    (h : nodeAt fs k = some n) : nameOk k = true ∧ fs.lookup k = some n := by
  unfold nodeAt at h
  rw [if_neg hb] at h
  by_cases hn : nameOk k = true
  · rw [if_pos hn] at h
    exact ⟨hn, h⟩
  · rw [if_neg hn] at h
    simp at h

/-- An object that exists under a directory is one of its entries. -/
theorem mem_childNames (fs : FS) (k : Key) (x : Str) (hx : x ≠ []) (n : Node)
    (h : nodeAt fs (k ++ [x]) = some n) : x ∈ childNames fs k := by
  obtain ⟨hn, hl⟩ := nodeAt_some_nameOk fs _ n (snoc_ne_base k x hx) h
  rw [nameOk_snoc] at hn
  have hm := lookup_mem fs _ n hl
  unfold childNames
  rw [List.mem_filterMap]
  refine ⟨(k ++ [x], n), hm, ?_⟩
  have hlen : byteLen x ≤ nameMax := by simpa using hn
  simp [hx, hlen]

theorem ReadDir_ok_dir (fs : FS) (path : Str) (entries : List Str)
    (h : ReadDir fs path = .ok entries) :
    checkKey (pathKey path) = none ∧
    walk fs (pathKey path) = none ∧ nodeAt fs (pathKey path) = some Node.dir ∧
      entries = (childNames fs (pathKey path)).dedup.insertionSort Ascending := by
  unfold ReadDir at h
  simp only at h
  cases hc : checkKey (pathKey path) with
  | some e => rw [hc] at h; simp at h
  | none =>
    rw [hc] at h
    cases hw : walk fs (pathKey path) with
    | some e => rw [hw] at h; simp at h
    | none =>
      rw [hw] at h
      cases hn : nodeAt fs (pathKey path) with
      | none => rw [hn] at h; simp at h
      | some n =>
        rw [hn] at h
        cases n with
        | dir =>
          simp only [Except.ok.injEq] at h
          exact ⟨rfl, rfl, rfl, h.symm⟩
        | file c => simp at h
        | symlink t => simp at h

theorem mem_ReadDir (fs : FS) (path : Str) (entries : List Str)
    (h : ReadDir fs path = .ok entries) (x : Str) :
    x ∈ entries ↔ x ∈ childNames fs (pathKey path) := by
  obtain ⟨_, _, _, he⟩ := ReadDir_ok_dir fs path entries h
  rw [he, (List.perm_insertionSort Ascending _).mem_iff, List.mem_dedup]

theorem ReadDir_enoent (fs : FS) (path : Str) (h : ReadDir fs path = .error Errno.ENOENT) :
    walk fs (pathKey path) = some Errno.ENOENT ∨
      (walk fs (pathKey path) = none ∧ nodeAt fs (pathKey path) = none ∧
        absent (pathKey path) = Errno.ENOENT) := by
  unfold ReadDir at h
  simp only at h
  cases hc : checkKey (pathKey path) with
  | some e =>
    rw [hc] at h
    simp only [Except.error.injEq] at h
    subst h
    unfold checkKey at hc
    split_ifs at hc <;> simp at hc
  | none =>
    rw [hc] at h
    cases hw : walk fs (pathKey path) with
    | some e =>
      rw [hw] at h
      simp only [Except.error.injEq] at h
      exact Or.inl (by rw [h])
    | none =>
      rw [hw] at h
      cases hn : nodeAt fs (pathKey path) with
      | none =>
        rw [hn] at h
        simp only [Except.error.injEq] at h
        exact Or.inr ⟨rfl, rfl, h⟩
      | some n =>
        rw [hn] at h
        cases n <;> simp at h

/-- A name that the directory listing lacks does not exist. -/
theorem lstat_child_of_not_mem (fs : FS) (path : Str) (entries : List Str) (x : Str)
    (h : ReadDir fs path = .ok entries) (hx : x ∉ entries) (hne : x ≠ [])
    (hc : checkKey (pathKey path ++ [x]) = none) (hlen : byteLen x ≤ nameMax) :
    lstat fs (pathKey path ++ [x]) = .error Errno.ENOENT := by
  obtain ⟨_, hw, hd, _⟩ := ReadDir_ok_dir fs path entries h
  have hnone : nodeAt fs (pathKey path ++ [x]) = none := by
    cases hn : nodeAt fs (pathKey path ++ [x]) with
    | none => rfl
    | some n =>
      exact absurd ((mem_ReadDir fs path entries h x).2
        (mem_childNames fs _ x hne n hn)) hx
  have ha : absent (pathKey path ++ [x]) = Errno.ENOENT := by
    unfold absent
    rw [nameOk_snoc]
    simp [hlen]
  unfold lstat
  rw [hc, walk_snoc, hw]
  simp [checkDirs, hd, hnone, ha]

/-- Nothing exists under a directory that does not exist. -/
theorem lstat_child_of_missing_dir (fs : FS) (path : Str) (x : Str)
    (h : ReadDir fs path = .error Errno.ENOENT)
    (hc : checkKey (pathKey path ++ [x]) = none) :
    lstat fs (pathKey path ++ [x]) = .error Errno.ENOENT := by
  unfold lstat
  rw [hc, walk_snoc]
  rcases ReadDir_enoent fs path h with hw | ⟨hw, hn, ha⟩
  · rw [hw]
  · rw [hw]
    simp [checkDirs, hn, ha]

theorem statFrom_of_lstat_error (fs : FS) (fuel : Nat) (k : Key) (e : Errno)
    (h : lstat fs k = .error e) : statFrom fs fuel k = .error e := by
  cases fuel <;> simp [statFrom, h]

theorem statFrom_of_lstat_file (fs : FS) (fuel : Nat) (k : Key) (c : List Nat)
    (h : lstat fs k = .ok (Node.file c)) : statFrom fs fuel k = .ok (Node.file c) := by
  cases fuel <;> simp [statFrom, h]

theorem TrimPrefix_append (pre s : Str) : TrimPrefix (pre ++ s) pre = s := by
  unfold TrimPrefix HasPrefix
  simp

theorem UserHomeDir_ok (w : World) (h : Str) (hh : UserHomeDir w = .ok h) :
    h = w.homeEnv ∧ w.homeEnv ≠ [] := by
  unfold UserHomeDir at hh
  split_ifs at hh with h0
  simp only [Except.ok.injEq] at hh
  exact ⟨hh.symm, h0⟩


/-! ## Version normalization -/

/-- C8: version normalization, the first statement of `SwitchVersion` and of
`InstallVersion`, is idempotent: normalizing a normalized string changes
nothing, for every input string, the empty one included. -/
theorem normalize_idempotent (x : Str) : normalize (normalize x) = normalize x := by
  unfold normalize
  by_cases h : HasPrefix x versionPrefix = true
  · simp [h]
  · have h2 : HasPrefix (versionPrefix ++ x) versionPrefix = true := by
      simp [HasPrefix]
    simp [h, h2]

/-! ## The environment advisor -/

/-- C10: `isKubeversionInPath` returns true exactly when the home directory
resolves and the string `Join(home, ".kubeversion", "bin")` is equal to one of
the segments of `PATH` split on `:`; the segments are compared as they are.
In particular it returns false when the home directory does not resolve. -/
theorem isKubeversionInPath_iff (w : World) :
    isKubeversionInPath w = true ↔
      ∃ h, UserHomeDir w = .ok h ∧
        Join [h, ".kubeversion".toList, "bin".toList] ∈ Split w.pathEnv ':' := by
  unfold isKubeversionInPath
  cases hh : UserHomeDir w with
  | error c => simp
  | ok h =>
    simp only [List.any_eq_true, decide_eq_true_eq, Except.ok.injEq, exists_eq_left']
    constructor
    · rintro ⟨p, hp, rfl⟩
      exact hp
    · intro hp
      exact ⟨_, hp, rfl⟩

/-! ## The inventory of installed versions -/

/-- C7: when the home directory resolves, `getInstalledVersions` returns the
empty set and no error if the version store directory does not exist, and
returns an error if reading the directory fails for any other reason. -/
theorem getInstalledVersions_missing_or_failing (w : World) (h : Str)
    (hh : UserHomeDir w = .ok h) :
    (lstat w.fs (pathKey (Join [h, ".kubeversion".toList, "versions".toList]))
        = .error Errno.ENOENT → getInstalledVersions w = .ok []) ∧
    (∀ e, ReadDir w.fs (Join [h, ".kubeversion".toList, "versions".toList]) = .error e →
        e ≠ Errno.ENOENT →
        getInstalledVersions w =
          .error ⟨"failed to read versions directory".toList, some (Cause.errno e)⟩) := by
  constructor
  · intro hl
    have hr : ReadDir w.fs (Join [h, ".kubeversion".toList, "versions".toList])
        = .error Errno.ENOENT := by
      unfold lstat at hl
      unfold ReadDir
      simp only
      cases hc : checkKey (pathKey (Join [h, ".kubeversion".toList, "versions".toList])) with
      | some e =>
        rw [hc] at hl
        simpa using hl
      | none =>
        rw [hc] at hl
        cases hw : walk w.fs (pathKey (Join [h, ".kubeversion".toList, "versions".toList])) with
        | some e =>
          rw [hw] at hl
          simpa using hl
        | none =>
          rw [hw] at hl
          cases hn : nodeAt w.fs
              (pathKey (Join [h, ".kubeversion".toList, "versions".toList])) with
          | none =>
            rw [hn] at hl
            simpa using hl
          | some n => rw [hn] at hl; simp at hl
    unfold getInstalledVersions
    rw [hh]
    simp only [hr]
    simp [IsNotExist]
  · intro e he hne
    unfold getInstalledVersions
    rw [hh]
    simp only [he]
    simp [IsNotExist, hne]

/-- Witness of C7: in a fresh environment the scan gives the empty set, and where
the version store is a regular file it gives the error of the failed read. -/
theorem getInstalledVersions_missing_or_failing_witness :
    getInstalledVersions freshWorld = .ok [] ∧
    getInstalledVersions blockedWorld =
      .error ⟨"failed to read versions directory".toList, some (Cause.errno Errno.ENOTDIR)⟩ :=
  ⟨(getInstalledVersions_missing_or_failing freshWorld "/home/u".toList rfl).1 (by decide),
   (getInstalledVersions_missing_or_failing blockedWorld "/home/u".toList rfl).2
      Errno.ENOTDIR (by decide) (by decide)⟩

theorem HasPrefix_TrimPrefix (name : Str)
    (h : HasPrefix name "kubectl-v".toList = true) :
    HasPrefix (TrimPrefix name "kubectl-".toList) "v".toList = true := by
  unfold HasPrefix at h
  obtain ⟨rest, rfl⟩ := List.isPrefixOf_iff_prefix.1 h
  have : "kubectl-v".toList ++ rest = "kubectl-".toList ++ ('v' :: rest) := rfl
  rw [this, TrimPrefix_append]
  simp [HasPrefix]

/-- C9, as the claim states it, fails: with the file `kubectl-1.28.0` in the version
store the scan returns the identifier `1.28.0`, which lacks the tag marker. -/
theorem getInstalledVersions_not_canonical :
    ¬ ∀ (w : World) (ids : List Str), getInstalledVersions w = .ok ids →
        ∀ id ∈ ids, HasPrefix id "v".toList = true := by
  intro h
  have h1 : getInstalledVersions untaggedWorld = .ok ["1.28.0".toList] := by decide
  have h2 := h untaggedWorld _ h1 "1.28.0".toList (by simp)
  revert h2
  decide

theorem TrimPrefix_spec (name pre id : Str) :
    TrimPrefix name pre = id ↔
      (name = pre ++ id ∨ (HasPrefix name pre = false ∧ name = id)) := by
  constructor
  · intro h
    unfold TrimPrefix at h
    by_cases hp : HasPrefix name pre = true
    · rw [if_pos hp] at h
      left
      unfold HasPrefix at hp
      obtain ⟨rest, rfl⟩ := List.isPrefixOf_iff_prefix.1 hp
      rw [← h]
      simp
    · rw [if_neg hp] at h
      right
      exact ⟨by simpa using hp, h⟩
  · rintro (h | ⟨hp, h⟩)
    · rw [h]
      exact TrimPrefix_append pre id
    · unfold TrimPrefix
      rw [if_neg (by simp [hp])]
      exact h

/-- C9, amended: for every content of the version store directory, the set that
`getInstalledVersions` returns consists exactly of the names of the entries with
the prefix `kubectl-` stripped, a name without that prefix being kept as it is;
and when every entry is named `kubectl-v...`, as the artifacts that
`InstallVersion` writes are, every identifier of the set begins with the tag
marker `v`. -/
theorem getInstalledVersions_canonical (w : World) (h : Str) (entries : List Str)
    (hh : UserHomeDir w = .ok h)
    (hr : ReadDir w.fs (Join [h, ".kubeversion".toList, "versions".toList]) = .ok entries) :
    ∃ ids, getInstalledVersions w = .ok ids ∧
      (∀ id, id ∈ ids ↔ ∃ name ∈ entries,
        name = "kubectl-".toList ++ id ∨
          (HasPrefix name "kubectl-".toList = false ∧ name = id)) ∧
      ((∀ name ∈ entries, HasPrefix name "kubectl-v".toList = true) →
        ∀ id ∈ ids, HasPrefix id "v".toList = true) := by
  refine ⟨entries.map fun entry => TrimPrefix entry "kubectl-".toList, ?_, ?_, ?_⟩
  · unfold getInstalledVersions
    rw [hh]
    simp only [hr]
  · intro id
    rw [List.mem_map]
    constructor
    · rintro ⟨name, hname, hid⟩
      exact ⟨name, hname, (TrimPrefix_spec name _ id).1 hid⟩
    · rintro ⟨name, hname, hid⟩
      exact ⟨name, hname, (TrimPrefix_spec name _ id).2 hid⟩
  · intro hall id hid
    obtain ⟨name, hname, rfl⟩ := List.mem_map.1 hid
    exact HasPrefix_TrimPrefix name (hall name hname)

/-- Witness of C9, amended: the store with the artifact `kubectl-v1.30.0` and the
file `notes.txt` gives the identifiers `v1.30.0` and `notes.txt`; the store with
the artifact `kubectl-v1.30.0` alone gives identifiers that all begin with
`v`. -/
theorem getInstalledVersions_canonical_witness :
    (getInstalledVersions mixedWorld = .ok ["v1.30.0".toList, "notes.txt".toList] ∧
      ∃ ids, getInstalledVersions mixedWorld = .ok ids ∧
        (∀ id, id ∈ ids ↔ ∃ name ∈ ["kubectl-v1.30.0".toList, "notes.txt".toList],
          name = "kubectl-".toList ++ id ∨
            (HasPrefix name "kubectl-".toList = false ∧ name = id)) ∧
        ((∀ name ∈ ["kubectl-v1.30.0".toList, "notes.txt".toList],
            HasPrefix name "kubectl-v".toList = true) →
          ∀ id ∈ ids, HasPrefix id "v".toList = true)) ∧
    (∃ ids, getInstalledVersions taggedWorld = .ok ids ∧
      ∀ id ∈ ids, HasPrefix id "v".toList = true) :=
  ⟨⟨by decide,
    getInstalledVersions_canonical mixedWorld "/home/u".toList
      ["kubectl-v1.30.0".toList, "notes.txt".toList] rfl (by decide)⟩,
   (getInstalledVersions_canonical taggedWorld "/home/u".toList
      ["kubectl-v1.30.0".toList] rfl (by decide)).imp
    fun _ hids => ⟨hids.1, hids.2.2 (by decide)⟩⟩


/-! ## The activator -/

/-- The name of the artifact of a version without separator: the name of the
version store followed by the file name. -/
theorem pathKey_artifact (h v : Str) (hh : h ≠ []) (hv : '/' ∉ v) :
    pathKey (Join [Join [h, ".kubeversion".toList, "versions".toList], "kubectl-".toList ++ v])
      = pathKey (Join [h, ".kubeversion".toList, "versions".toList])
          ++ ["kubectl-".toList ++ v] :=
  pathKey_Join_two _ _ (Join_three_ne_nil _ _ _ hh) (plain_artifact v hv)

/-- A version whose identifier the scan does not report has no artifact, when its
artifact path is one that the system accepts. -/
theorem Stat_artifact_of_not_installed (w : World) (h v : Str) (ids : List Str)
    (hh : UserHomeDir w = .ok h) (hv : '/' ∉ v)
    (hpath : checkKey (pathKey (artifactPathOf h v)) = none)
    (hname : byteLen ("kubectl-".toList ++ v) ≤ nameMax)
    (hs : getInstalledVersions w = .ok ids) (hn : v ∉ ids) :
    Stat w.fs (artifactPathOf h v) = .error Errno.ENOENT := by
  have hne := (UserHomeDir_ok w h hh).2
  have hh2 := (UserHomeDir_ok w h hh).1
  have hk := pathKey_artifact h v (hh2 ▸ hne) hv
  unfold Stat
  apply statFrom_of_lstat_error
  rw [hk]
  rw [hk] at hpath
  unfold getInstalledVersions at hs
  rw [hh] at hs
  simp only at hs
  cases hr : ReadDir w.fs (Join [h, ".kubeversion".toList, "versions".toList]) with
  | error e =>
    rw [hr] at hs
    simp only at hs
    split_ifs at hs with he
    have he2 : e = Errno.ENOENT := by simpa [IsNotExist] using he
    subst he2
    exact lstat_child_of_missing_dir _ _ _ hr hpath
  | ok entries =>
    rw [hr] at hs
    simp only [Except.ok.injEq] at hs
    apply lstat_child_of_not_mem _ _ entries _ hr _ (by simp) hpath hname
    intro hmem
    apply hn
    rw [← hs]
    exact List.mem_map.2 ⟨_, hmem, TrimPrefix_append _ _⟩

set_option maxRecDepth 100000 in
/-- C2, as the claim states it, fails, in four ways, each with a version string
that the scan does not report.  The first three have the artifact
`kubectl-v1.29.0` in the store.  For `v1.29.0/`, `filepath.Join` cleans the
trailing separator away, the artifact is found and the link is made.  For a
version of 248 bytes, the file name exceeds `NAME_MAX`, `os.Stat` fails with
`ENAMETOOLONG`, which is not "not exist", and a dangling link is made.  For a
version with a zero byte, `os.Stat` fails with `EINVAL`, the bin directory is
made, and the call ends in the error of `os.Symlink`.  The fourth has an empty
store under a home directory whose path has 4048 bytes: for a version of 21
bytes the artifact path has 4100 bytes, `os.Stat` fails with `ENAMETOOLONG`,
the bin directory is made, and the call ends in the error of `os.Symlink`. -/
theorem SwitchVersion_unlisted_succeeds :
    getInstalledVersions installedWorld = .ok ["v1.29.0".toList] ∧
    (normalize "v1.29.0/".toList ∉ ["v1.29.0".toList] ∧
      (SwitchVersion installedWorld "v1.29.0/".toList).1 = none ∧
      nodeAt installedWorld.fs stableKey = none ∧
      nodeAt (SwitchVersion installedWorld "v1.29.0/".toList).2.fs stableKey =
        some (Node.symlink "/home/u/.kubeversion/versions/kubectl-v1.29.0".toList)) ∧
    (normalize longVersion ∉ ["v1.29.0".toList] ∧
      Stat installedWorld.fs (artifactPathOf "/home/u".toList longVersion)
        = .error Errno.ENAMETOOLONG ∧
      (SwitchVersion installedWorld longVersion).1 = none ∧
      nodeAt (SwitchVersion installedWorld longVersion).2.fs stableKey =
        some (Node.symlink (artifactPathOf "/home/u".toList longVersion))) ∧
    (normalize nulVersion ∉ ["v1.29.0".toList] ∧
      Stat installedWorld.fs (artifactPathOf "/home/u".toList nulVersion)
        = .error Errno.EINVAL ∧
      (SwitchVersion installedWorld nulVersion).1 =
        some ⟨"failed to create symlink".toList, some (Cause.errno Errno.EINVAL)⟩ ∧
      nodeAt (SwitchVersion installedWorld nulVersion).2.fs
        [[], "home".toList, "u".toList, ".kubeversion".toList, "bin".toList]
        = some Node.dir ∧
      nodeAt installedWorld.fs
        [[], "home".toList, "u".toList, ".kubeversion".toList, "bin".toList] = none) ∧
    (getInstalledVersions deepWorld = .ok [] ∧
      byteLen ("kubectl-".toList ++ normalize wideVersion) ≤ nameMax ∧
      keyBytes (pathKey (artifactPathOf deepHome wideVersion)) = 4100 ∧
      Stat deepWorld.fs (artifactPathOf deepHome wideVersion) = .error Errno.ENAMETOOLONG ∧
      (SwitchVersion deepWorld wideVersion).1 =
        some ⟨"failed to create symlink".toList, some (Cause.errno Errno.ENAMETOOLONG)⟩ ∧
      nodeAt (SwitchVersion deepWorld wideVersion).2.fs
        (deepKey ++ [".kubeversion".toList, "bin".toList]) = some Node.dir ∧
      nodeAt deepWorld.fs (deepKey ++ [".kubeversion".toList, "bin".toList]) = none) := by
  decide

/-- C2, amended: for every version string without path separator whose artifact
path the system accepts (no zero byte, fewer than `PATH_MAX` bytes, the file
name `kubectl-<canonical version>` within `NAME_MAX`) and whose canonical
identifier is not in the set that the scan returns, `SwitchVersion` returns the
"not installed" error, whose message names the command
`kubeversion install <canonical version>`, and leaves the world, the whole file
system included, as it was. -/
theorem SwitchVersion_not_installed (w : World) (v : Str) (ids : List Str)
    (hv : '/' ∉ v)
    (hpath : checkKey (pathKey (artifactPathOf w.homeEnv (normalize v))) = none)
    (hname : byteLen ("kubectl-".toList ++ normalize v) ≤ nameMax)
    (hs : getInstalledVersions w = .ok ids) (hn : normalize v ∉ ids) :
    SwitchVersion w v =
      (some ⟨"version ".toList ++ normalize v
          ++ " is not installed. Use 'kubeversion install ".toList
          ++ normalize v ++ "' first".toList, none⟩, w) := by
  cases hh : UserHomeDir w with
  | error c =>
    unfold getInstalledVersions at hs
    rw [hh] at hs
    simp at hs
  | ok h =>
    have hh2 := (UserHomeDir_ok w h hh).1
    rw [← hh2] at hpath
    have hst := Stat_artifact_of_not_installed w h (normalize v) ids hh
      (normalize_no_sep v hv) hpath hname hs hn
    unfold SwitchVersion
    rw [hh]
    simp only [hst]
    simp [IsNotExist, notInstalledMsg]

/-- Witness of C2, amended: with `v1.29.0` installed and active, `1.30.0` is not
installed, and the call leaves the store, the bin directory and the link as
they were. -/
theorem SwitchVersion_not_installed_witness :
    SwitchVersion activeWorld "1.30.0".toList =
      (some ⟨"version v1.30.0 is not installed. Use 'kubeversion install v1.30.0' first".toList,
        none⟩, activeWorld) :=
  SwitchVersion_not_installed activeWorld "1.30.0".toList ["v1.29.0".toList]
    (by decide) (by decide) (by decide) (by decide) (by decide)

theorem mem_inits_dropLast (k p : Key) (h : p ∈ k.inits.dropLast) :
    p <+: k ∧ p.length < k.length := by
  induction k using List.reverseRecOn with
  | nil => simp at h
  | append_singleton l a _ =>
    rw [inits_snoc, List.dropLast_concat] at h
    have hp := (List.mem_inits _ _).1 h
    refine ⟨hp.trans (List.prefix_append l [a]), ?_⟩
    have := hp.length_le
    simp
    omega

theorem ne_of_mem_inits_dropLast (k p : Key) (h : p ∈ k.inits.dropLast) : p ≠ k := by
  intro e
  have := (mem_inits_dropLast k p h).2
  rw [e] at this
  omega

/-- A run of `mkdirs` over directories changes nothing. -/
theorem mkdirs_of_dirs (fs : FS) (ks : List Key)
    (h : ∀ k ∈ ks, checkKey k = none ∧ nodeAt fs k = some Node.dir) :
    mkdirs fs ks = (none, fs) := by
  induction ks with
  | nil => rfl
  | cons k rest ih =>
    unfold mkdirs
    rw [(h k (by simp)).1, (h k (by simp)).2]
    exact ih (fun k1 hk1 => h k1 (by simp [hk1]))

/-- After a run of `mkdirs` without error every name of the list is a directory,
and every object that existed before is unchanged. -/
theorem mkdirs_spec (ks : List Key) : ∀ (fs fs1 : FS), mkdirs fs ks = (none, fs1) →
    (∀ k ∈ ks, checkKey k = none ∧ nodeAt fs1 k = some Node.dir) ∧
    (∀ k n, nodeAt fs k = some n → nodeAt fs1 k = some n) := by
  induction ks with
  | nil =>
    intro fs fs1 h
    simp only [mkdirs, Prod.mk.injEq, true_and] at h
    subst h
    exact ⟨by simp, fun _ _ h => h⟩
  | cons k rest ih =>
    intro fs fs1 h
    unfold mkdirs at h
    cases hc : checkKey k with
    | some e => rw [hc] at h; simp at h
    | none =>
      rw [hc] at h
      cases hn : nodeAt fs k with
      | none =>
        rw [hn] at h
        by_cases hok : nameOk k = true
        · rw [if_pos hok] at h
          obtain ⟨h1, h2⟩ := ih _ _ h
          have hb := nodeAt_none_not_base fs k hn
          have hmono : ∀ k1 n, nodeAt fs k1 = some n → nodeAt fs1 k1 = some n := by
            intro k1 n hk1
            apply h2
            rw [nodeAt_cons_ne]
            · exact hk1
            · intro e
              rw [e, hn] at hk1
              simp at hk1
          refine ⟨?_, hmono⟩
          intro k1 hk1
          rcases List.mem_cons.1 hk1 with rfl | hk2
          · exact ⟨hc, h2 _ _ (nodeAt_cons_self fs k1 Node.dir hb hok)⟩
          · exact h1 k1 hk2
        · rw [if_neg hok] at h
          simp at h
      | some n =>
        rw [hn] at h
        cases n with
        | dir =>
          obtain ⟨h1, h2⟩ := ih _ _ h
          refine ⟨?_, h2⟩
          intro k1 hk1
          rcases List.mem_cons.1 hk1 with rfl | hk2
          · exact ⟨hc, h2 _ _ hn⟩
          · exact h1 k1 hk2
        | file c => simp at h
        | symlink t => simp at h

/-- After `MkdirAll` without error the path and its parents are directories. -/
theorem MkdirAll_dirs (fs fs1 : FS) (path : Str) (h : MkdirAll fs path = (none, fs1)) :
    ∀ k ∈ (pathKey path).inits, nodeAt fs1 k = some Node.dir := by
  intro k hk
  cases hi : (pathKey path).inits with
  | nil => rw [hi] at hk; simp at hk
  | cons a rest =>
    rw [hi] at hk
    unfold MkdirAll at h
    rw [hi] at h
    rcases List.mem_cons.1 hk with rfl | hk2
    · have hmem : k ∈ (pathKey path).inits := by rw [hi]; simp
      have hpre := (List.mem_inits _ _).1 hmem
      cases hp : pathKey path with
      | nil => rw [hp] at hpre; simp at hpre; subst hpre; simp [nodeAt]
      | cons b bs =>
        rw [hp, List.inits_cons] at hi
        simp only [List.cons.injEq] at hi
        rw [← hi.1]
        simp [nodeAt]
    · exact ((mkdirs_spec rest fs fs1 h).1 k hk2).2

theorem MkdirAll_checkKey (fs fs1 : FS) (path : Str) (h : MkdirAll fs path = (none, fs1)) :
    ∀ k ∈ (pathKey path).inits.tail, checkKey k = none :=
  fun k hk => ((mkdirs_spec _ fs fs1 h).1 k hk).1

theorem MkdirAll_mono (fs fs1 : FS) (path : Str) (h : MkdirAll fs path = (none, fs1)) :
    ∀ k n, nodeAt fs k = some n → nodeAt fs1 k = some n :=
  (mkdirs_spec _ fs fs1 h).2

/-- What a run of `Symlink` without error found and did. -/
theorem Symlink_inv (fs fs3 : FS) (oldname newname : Str)
    (h : Symlink fs oldname newname = (none, fs3)) :
    ¬ (nul ∈ oldname ∨ (pathKey newname).any (fun c => decide (nul ∈ c)) = true) ∧
    oldname ≠ [] ∧ ¬ pathMax ≤ byteLen oldname ∧
    checkKey (pathKey newname) = none ∧ walk fs (pathKey newname) = none ∧
    nodeAt fs (pathKey newname) = none ∧ nameOk (pathKey newname) = true ∧
    fs3 = (pathKey newname, Node.symlink oldname) :: fs := by
  unfold Symlink at h
  simp only at h
  by_cases h1 : nul ∈ oldname ∨ (pathKey newname).any (fun c => decide (nul ∈ c)) = true
  · rw [if_pos h1] at h; simp at h
  rw [if_neg h1] at h
  by_cases h2 : oldname = []
  · rw [if_pos h2] at h; simp at h
  rw [if_neg h2] at h
  by_cases h3 : pathMax ≤ byteLen oldname
  · rw [if_pos h3] at h; simp at h
  rw [if_neg h3] at h
  cases hc : checkKey (pathKey newname) with
  | some e => rw [hc] at h; simp at h
  | none =>
    rw [hc] at h
    cases hw : walk fs (pathKey newname) with
    | some e => rw [hw] at h; simp at h
    | none =>
      rw [hw] at h
      cases hn : nodeAt fs (pathKey newname) with
      | some n => rw [hn] at h; simp at h
      | none =>
        rw [hn] at h
        by_cases hok : nameOk (pathKey newname) = true
        · simp only [hok, if_true, Prod.mk.injEq, true_and] at h
          exact ⟨h1, h2, h3, rfl, rfl, rfl, hok, h.symm⟩
        · simp [hok] at h

/-- After `Symlink` without error the new name is the link. -/
theorem lstat_of_Symlink (fs fs3 : FS) (oldname newname : Str)
    (h : Symlink fs oldname newname = (none, fs3)) :
    lstat fs3 (pathKey newname) = .ok (Node.symlink oldname) := by
  obtain ⟨_, _, _, hc, hw, hn, hok, rfl⟩ := Symlink_inv fs fs3 oldname newname h
  have hb := nodeAt_none_not_base fs _ hn
  unfold lstat
  rw [hc]
  have hw3 : walk ((pathKey newname, Node.symlink oldname) :: fs) (pathKey newname) = none := by
    unfold walk at hw ⊢
    rw [checkDirs_congr fs _ _ (fun k hk => nodeAt_cons_ne fs _ k _
      (ne_of_mem_inits_dropLast _ k hk))]
    exact hw
  rw [hw3, nodeAt_cons_self fs _ _ hb hok]

/-- The run of `SwitchVersion` when the artifact is not reported missing and the
three operations on the bin directory and the stable path succeed. -/
theorem SwitchVersion_ok (w : World) (h v : Str) (fs1 fs2 fs3 : FS)
    (hh : UserHomeDir w = .ok h)
    (hst : Stat w.fs (artifactPathOf h (normalize v)) ≠ .error Errno.ENOENT)
    (hmk : MkdirAll w.fs (binDirOf h) = (none, fs1))
    (hrm : RemoveAll fs1 (stablePathOf h) = (none, fs2))
    (hsym : Symlink fs2 (artifactPathOf h (normalize v)) (stablePathOf h) = (none, fs3)) :
    (SwitchVersion w v).1 = none ∧
    (SwitchVersion w v).2.fs = fs3 ∧
    (SwitchVersion w v).2.homeEnv = w.homeEnv := by
  have hcond : (match Stat w.fs (artifactPathOf h (normalize v)) with
      | .error e => IsNotExist e
      | .ok _ => false) = false := by
    cases hs : Stat w.fs (artifactPathOf h (normalize v)) with
    | ok n => rfl
    | error e =>
      have : e ≠ Errno.ENOENT := fun he => hst (by rw [hs, he])
      simp [IsNotExist, this]
  unfold SwitchVersion
  rw [hh]
  simp only [hcond, Bool.false_eq_true, ↓reduceIte, hmk, hrm, hsym]
  refine ⟨trivial, ?_, ?_⟩
  · split_ifs <;> rfl
  · split_ifs <;> rfl

/-- C1, as the claim states it, fails: with a file named `v1.29.0` in the store
the scan reports the identifier `v1.29.0`, the bin directory can be made, and
`SwitchVersion("v1.29.0")` returns the "not installed" error and creates no
link, because it looks for the artifact `kubectl-v1.29.0`. -/
theorem SwitchVersion_listed_fails :
    getInstalledVersions strayWorld = .ok ["v1.29.0".toList] ∧
    (MkdirAll strayWorld.fs (binDirOf "/home/u".toList)).1 = none ∧
    (SwitchVersion strayWorld "v1.29.0".toList).1 =
      some ⟨"version v1.29.0 is not installed. Use 'kubeversion install v1.29.0' first".toList,
        none⟩ ∧
    nodeAt (SwitchVersion strayWorld "v1.29.0".toList).2.fs stableKey = none := by
  decide

/-- C1, amended: for every version string whose artifact
`<home>/.kubeversion/versions/kubectl-<canonical version>` exists (`os.Stat`
succeeds on it), and assuming that the home directory resolves and that the
directory-create, remove and symlink operations do not fail, `SwitchVersion`
returns no error and afterwards the stable binary path
`<home>/.kubeversion/bin/kubectl` is a symbolic link whose target is the artifact
path. -/
theorem SwitchVersion_installed (w : World) (h v : Str) (n : Node) (fs1 fs2 fs3 : FS)
    (hh : UserHomeDir w = .ok h)
    (hst : Stat w.fs (artifactPathOf h (normalize v)) = .ok n)
    (hmk : MkdirAll w.fs (binDirOf h) = (none, fs1))
    (hrm : RemoveAll fs1 (stablePathOf h) = (none, fs2))
    (hsym : Symlink fs2 (artifactPathOf h (normalize v)) (stablePathOf h) = (none, fs3)) :
    (SwitchVersion w v).1 = none ∧
    (SwitchVersion w v).2.fs = fs3 ∧
    lstat (SwitchVersion w v).2.fs (pathKey (stablePathOf h)) =
      .ok (Node.symlink (artifactPathOf h (normalize v))) := by
  obtain ⟨h1, h2, _⟩ :=
    SwitchVersion_ok w h v fs1 fs2 fs3 hh (by rw [hst]; simp) hmk hrm hsym
  refine ⟨h1, h2, ?_⟩
  rw [h2]
  exact lstat_of_Symlink fs2 fs3 _ _ hsym

/-- Witness of C1, amended: with the artifact `kubectl-v1.29.0` in the store,
`SwitchVersion("1.29.0")` makes the bin directory and links the stable path to
the artifact. -/
theorem SwitchVersion_installed_witness :
    (SwitchVersion installedWorld "1.29.0".toList).1 = none ∧
    (SwitchVersion installedWorld "1.29.0".toList).2.fs =
      (stableKey, Node.symlink "/home/u/.kubeversion/versions/kubectl-v1.29.0".toList) ::
        ([[], "home".toList, "u".toList, ".kubeversion".toList, "bin".toList], Node.dir) ::
          installedWorld.fs ∧
    lstat (SwitchVersion installedWorld "1.29.0".toList).2.fs
        (pathKey (stablePathOf "/home/u".toList)) =
      .ok (Node.symlink (artifactPathOf "/home/u".toList (normalize "1.29.0".toList))) :=
  SwitchVersion_installed installedWorld "/home/u".toList "1.29.0".toList (Node.file [127, 69])
    (([[], "home".toList, "u".toList, ".kubeversion".toList, "bin".toList], Node.dir) ::
      installedWorld.fs)
    (([[], "home".toList, "u".toList, ".kubeversion".toList, "bin".toList], Node.dir) ::
      installedWorld.fs)
    ((stableKey, Node.symlink "/home/u/.kubeversion/versions/kubectl-v1.29.0".toList) ::
      ([[], "home".toList, "u".toList, ".kubeversion".toList, "bin".toList], Node.dir) ::
        installedWorld.fs)
    rfl (by decide) (by decide) (by decide) (by decide)

/-! ## Two activations in a row -/

theorem shorter_mem_inits_dropLast (k p : Key) (hp : p <+: k) (hne : p ≠ k) :
    p ∈ k.inits.dropLast := by
  have h := (List.mem_inits p k).2 hp
  rw [inits_eq_dropLast_snoc] at h
  rcases List.mem_append.1 h with h1 | h1
  · exact h1
  · simp at h1
    exact absurd h1 hne

theorem walk_of_shorter (fs : FS) (k p : Key) (hp : p <+: k) (hw : walk fs k = none) :
    walk fs p = none := by
  unfold walk at hw ⊢
  apply checkDirs_of_dirs
  intro q hq
  have hq1 := mem_inits_dropLast p q hq
  apply dirs_of_checkDirs fs _ hw
  apply shorter_mem_inits_dropLast
  · exact hq1.1.trans hp
  · intro e
    have := hp.length_le
    rw [e] at hq1
    omega

theorem walk_base (fs : FS) : walk fs [[]] = none := by
  simp [walk, List.inits, checkDirs, nodeAt]

theorem walk_parentKey (fs : FS) (cur : Key) (hw : walk fs cur = none)
    (hd : nodeAt fs cur = some Node.dir) : walk fs (parentKey cur) = none := by
  unfold parentKey
  split_ifs with h1 h2
  · exact walk_base fs
  · rw [walk_snoc, hw]
    simp [checkDirs, hd]
  · exact walk_of_shorter fs cur _ (List.dropLast_prefix cur) hw

theorem lstat_ok_inv (fs : FS) (k : Key) (n : Node) (h : lstat fs k = .ok n) :
    checkKey k = none ∧ walk fs k = none ∧ nodeAt fs k = some n := by
  unfold lstat at h
  cases hc : checkKey k with
  | some e => rw [hc] at h; simp at h
  | none =>
    rw [hc] at h
    cases hw : walk fs k with
    | some e => rw [hw] at h; simp at h
    | none =>
      rw [hw] at h
      cases hn : nodeAt fs k with
      | none => rw [hn] at h; simp at h
      | some m =>
        rw [hn] at h
        simp only [Except.ok.injEq] at h
        subst h
        exact ⟨rfl, rfl, rfl⟩

theorem statFrom_of_lstat_dir (fs : FS) (fuel : Nat) (k : Key)
    (h : lstat fs k = .ok Node.dir) : statFrom fs fuel k = .ok Node.dir := by
  unfold statFrom
  rw [h]

theorem statFrom_link_zero (fs : FS) (k : Key) (t : Str)
    (h : lstat fs k = .ok (Node.symlink t)) : statFrom fs 0 k = .error Errno.ELOOP := by
  unfold statFrom
  rw [h]

theorem statFrom_link_succ (fs : FS) (m : Nat) (k : Key) (t : Str)
    (h : lstat fs k = .ok (Node.symlink t)) :
    statFrom fs (m + 1) k =
      match resolveLink fs k t with
      | .error e => .error e
      | .ok k1 => statFrom fs m k1 := by
  rw [statFrom]
  rw [h]

/-- The object under a name that the walk reaches in the new file system: the
link at `K`, or an object that the old file system has not (then the old one
reports it missing), or the object of the old file system. -/
theorem node_sim (fs0 fs3 : FS) (K : Key) (t : Str)
    (ha : nodeAt fs3 K = some (Node.symlink t))
    (hb : ∀ k n, ¬ K <+: k → nodeAt fs0 k = some n → nodeAt fs3 k = some n)
    (q : Key) (hw3 : walk fs3 q = none) :
    q = K ∨ (nodeAt fs0 q = none ∧ nameOk q = true) ∨ nodeAt fs3 q = nodeAt fs0 q := by
  by_cases hK : K <+: q
  · by_cases hKq : K = q
    · exact Or.inl hKq.symm
    · exfalso
      have := dirs_of_checkDirs fs3 _ hw3 K (shorter_mem_inits_dropLast q K hK hKq)
      rw [ha] at this
      simp at this
  · right
    cases h0 : nodeAt fs0 q with
    | some n => exact Or.inr (hb q n hK h0)
    | none =>
      by_cases hok : nameOk q = true
      · exact Or.inl ⟨rfl, hok⟩
      · right
        have hbase := nodeAt_none_not_base fs0 q h0
        unfold nodeAt
        rw [if_neg hbase, if_neg hok]

theorem checkDirs_one_sim (fs0 fs3 : FS) (K : Key) (t : Str)
    (ha : nodeAt fs3 K = some (Node.symlink t))
    (hb : ∀ k n, ¬ K <+: k → nodeAt fs0 k = some n → nodeAt fs3 k = some n)
    (q : Key) (hw3 : walk fs3 q = none) :
    checkDirs fs3 [q] = some Errno.ENOTDIR ∨ checkDirs fs0 [q] = some Errno.ENOENT ∨
      (checkDirs fs3 [q] = checkDirs fs0 [q] ∧ nodeAt fs3 q = nodeAt fs0 q) := by
  rcases node_sim fs0 fs3 K t ha hb q hw3 with h | ⟨h1, h2⟩ | h
  · left
    subst h
    simp [checkDirs, ha]
  · right; left
    simp [checkDirs, h1, absent, h2]
  · right; right
    exact ⟨by simp [checkDirs, h], h⟩

/-- The walk in the new file system stops at the link at `K`, or the old file
system reports a directory missing, or both walks end alike. -/
theorem walk_sim (fs0 fs3 : FS) (K : Key) (t : Str)
    (ha : nodeAt fs3 K = some (Node.symlink t))
    (hb : ∀ k n, ¬ K <+: k → nodeAt fs0 k = some n → nodeAt fs3 k = some n)
    (k : Key) :
    walk fs3 k = some Errno.ENOTDIR ∨ walk fs0 k = some Errno.ENOENT ∨
      walk fs3 k = walk fs0 k := by
  induction k using List.reverseRecOn with
  | nil =>
    right; right
    simp [walk, checkDirs]
  | append_singleton k1 x ih =>
    rw [walk_snoc, walk_snoc]
    rcases ih with h | h | h
    · left
      rw [h]
    · right; left
      rw [h]
    · cases h3 : walk fs3 k1 with
      | some e =>
        right; right
        rw [← h, h3]
      | none =>
        rw [← h, h3]
        simp only
        rcases checkDirs_one_sim fs0 fs3 K t ha hb k1 h3 with g | g | g
        · exact Or.inl g
        · exact Or.inr (Or.inl g)
        · exact Or.inr (Or.inr g.1)

/-- What `lstat` answers in the new file system for a name other than `K`. -/
theorem lstat_sim (fs0 fs3 : FS) (K : Key) (t : Str)
    (ha : nodeAt fs3 K = some (Node.symlink t))
    (hb : ∀ k n, ¬ K <+: k → nodeAt fs0 k = some n → nodeAt fs3 k = some n)
    (k : Key) (hk : k ≠ K) :
    lstat fs3 k = .error Errno.ENOTDIR ∨ lstat fs0 k = .error Errno.ENOENT ∨
      lstat fs3 k = lstat fs0 k := by
  unfold lstat
  cases hc : checkKey k with
  | some e => right; right; rfl
  | none =>
    simp only
    rcases walk_sim fs0 fs3 K t ha hb k with h | h | h
    · left
      rw [h]
    · right; left
      rw [h]
    · cases h3 : walk fs3 k with
      | some e =>
        right; right
        rw [← h, h3]
      | none =>
        rw [← h, h3]
        simp only
        rcases node_sim fs0 fs3 K t ha hb k h3 with g | ⟨g1, g2⟩ | g
        · exact absurd g hk
        · right; left
          rw [g1]
          simp [absent, g2]
        · right; right
          rw [g]

/-- The walk over the elements of a link target in the new file system runs into
the link at `K`, or the old file system reports a directory missing, or both
walks end alike. -/
theorem walkFrom_sim (fs0 fs3 : FS) (K : Key) (t : Str)
    (ha : nodeAt fs3 K = some (Node.symlink t))
    (hb : ∀ k n, ¬ K <+: k → nodeAt fs0 k = some n → nodeAt fs3 k = some n)
    (elems : List Str) : ∀ (cur : Key), walk fs3 cur = none →
      walkFrom fs3 cur elems = .error Errno.ENOTDIR ∨
      walkFrom fs0 cur elems = .error Errno.ENOENT ∨
      walkFrom fs3 cur elems = walkFrom fs0 cur elems := by
  induction elems with
  | nil =>
    intro cur _
    right; right
    simp [walkFrom]
  | cons c rest ih =>
    intro cur hw3
    unfold walkFrom
    rcases checkDirs_one_sim fs0 fs3 K t ha hb cur hw3 with g | g | ⟨g, gn⟩
    · left
      rw [g]
    · right; left
      rw [g]
    · rw [g]
      cases h0 : checkDirs fs0 [cur] with
      | some e => right; right; rfl
      | none =>
        simp only
        apply ih
        have hd3 : nodeAt fs3 cur = some Node.dir := by
          rw [gn]
          exact dirs_of_checkDirs fs0 _ h0 cur (by simp)
        split_ifs with hc
        · exact walk_parentKey fs3 cur hw3 hd3
        · rw [walk_snoc, hw3]
          simp [checkDirs, hd3]

/-- With less fuel `stat` gives the same answer or stops with `ELOOP`. -/
theorem statFrom_fuel_succ (fs : FS) : ∀ (m : Nat) (k : Key),
    statFrom fs m k = .error Errno.ELOOP ∨ statFrom fs m k = statFrom fs (m + 1) k := by
  intro m
  induction m with
  | zero =>
    intro k
    cases hl : lstat fs k with
    | error e =>
      right
      rw [statFrom_of_lstat_error fs _ k e hl, statFrom_of_lstat_error fs _ k e hl]
    | ok n =>
      cases n with
      | file c =>
        right
        rw [statFrom_of_lstat_file fs _ k c hl, statFrom_of_lstat_file fs _ k c hl]
      | dir =>
        right
        rw [statFrom_of_lstat_dir fs _ k hl, statFrom_of_lstat_dir fs _ k hl]
      | symlink t =>
        left
        exact statFrom_link_zero fs k t hl
  | succ m ih =>
    intro k
    cases hl : lstat fs k with
    | error e =>
      right
      rw [statFrom_of_lstat_error fs _ k e hl, statFrom_of_lstat_error fs _ k e hl]
    | ok n =>
      cases n with
      | file c =>
        right
        rw [statFrom_of_lstat_file fs _ k c hl, statFrom_of_lstat_file fs _ k c hl]
      | dir =>
        right
        rw [statFrom_of_lstat_dir fs _ k hl, statFrom_of_lstat_dir fs _ k hl]
      | symlink t =>
        rw [statFrom_link_succ fs m k t hl, statFrom_link_succ fs (m + 1) k t hl]
        cases hr : resolveLink fs k t with
        | error e => right; rfl
        | ok k1 => exact ih k1

theorem statFrom_fuel_le (fs : FS) (k : Key) (F : Nat) : ∀ (m : Nat), m ≤ F →
    statFrom fs m k = .error Errno.ELOOP ∨ statFrom fs m k = statFrom fs F k := by
  induction F with
  | zero =>
    intro m hm
    right
    rw [Nat.le_zero.1 hm]
  | succ F ih =>
    intro m hm
    rcases Nat.lt_or_ge m (F + 1) with h | h
    · rcases ih m (Nat.lt_succ_iff.1 h) with g | g
      · exact Or.inl g
      · rcases statFrom_fuel_succ fs F k with g1 | g1
        · left
          rw [g, g1]
        · right
          rw [g, g1]
    · right
      rw [Nat.le_antisymm hm h]

/-- A name that `stat` does not report missing in the old file system is not
reported missing in the new one: `stat` answers alike, or a directory position
has become the link at `K`, or the links go round in a loop. -/
theorem statFrom_sim (fs0 fs3 : FS) (K A : Key) (t : Str) (F : Nat)
    (ha : nodeAt fs3 K = some (Node.symlink t))
    (hb : ∀ k n, ¬ K <+: k → nodeAt fs0 k = some n → nodeAt fs3 k = some n)
    (hK : lstat fs3 K = .ok (Node.symlink t))
    (hr : resolveLink fs3 K t = .ok A ∨
      ∃ e, e ≠ Errno.ENOENT ∧ resolveLink fs3 K t = .error e)
    (hs : statFrom fs0 F A ≠ .error Errno.ENOENT) :
    ∀ (f : Nat), f ≤ F → ∀ (k : Key), statFrom fs0 f k ≠ .error Errno.ENOENT →
      statFrom fs3 f k ≠ .error Errno.ENOENT := by
  have hsA : ∀ m, m ≤ F → statFrom fs0 m A ≠ .error Errno.ENOENT := by
    intro m hm
    rcases statFrom_fuel_le fs0 A F m hm with g | g
    · rw [g]; simp
    · rw [g]; exact hs
  intro f
  induction f with
  | zero =>
    intro _ k h
    by_cases hk : k = K
    · subst hk
      rw [statFrom_link_zero fs3 k t hK]; simp
    · rcases lstat_sim fs0 fs3 K t ha hb k hk with g | g | g
      · rw [statFrom_of_lstat_error fs3 _ k _ g]; simp
      · exact absurd (statFrom_of_lstat_error fs0 _ k _ g) h
      · cases hl : lstat fs0 k with
        | error e =>
          rw [hl] at g
          rw [statFrom_of_lstat_error fs3 _ k e g]
          rw [statFrom_of_lstat_error fs0 _ k e hl] at h
          exact h
        | ok n =>
          rw [hl] at g
          cases n with
          | file c => rw [statFrom_of_lstat_file fs3 _ k c g]; simp
          | dir => rw [statFrom_of_lstat_dir fs3 _ k g]; simp
          | symlink t1 => rw [statFrom_link_zero fs3 k t1 g]; simp
  | succ m ih =>
    intro hm k h
    have hm1 : m ≤ F := Nat.le_of_succ_le hm
    by_cases hk : k = K
    · subst hk
      rw [statFrom_link_succ fs3 m k t hK]
      rcases hr with hr | ⟨e, he, hr⟩
      · rw [hr]
        exact ih hm1 A (hsA m hm1)
      · rw [hr]
        simpa using he
    · rcases lstat_sim fs0 fs3 K t ha hb k hk with g | g | g
      · rw [statFrom_of_lstat_error fs3 _ k _ g]; simp
      · exact absurd (statFrom_of_lstat_error fs0 _ k _ g) h
      · cases hl : lstat fs0 k with
        | error e =>
          rw [hl] at g
          rw [statFrom_of_lstat_error fs3 _ k e g]
          rw [statFrom_of_lstat_error fs0 _ k e hl] at h
          exact h
        | ok n =>
          rw [hl] at g
          cases n with
          | file c => rw [statFrom_of_lstat_file fs3 _ k c g]; simp
          | dir => rw [statFrom_of_lstat_dir fs3 _ k g]; simp
          | symlink t1 =>
            rw [statFrom_link_succ fs3 m k t1 g]
            rw [statFrom_link_succ fs0 m k t1 hl] at h
            unfold resolveLink at h ⊢
            by_cases ht : t1 = []
            · rw [if_pos ht] at h
              simp at h
            · rw [if_neg ht] at h ⊢
              have hw3 : walk fs3 (if isRooted t1 then [[]] else k.dropLast) = none := by
                split_ifs
                · exact walk_base fs3
                · exact walk_of_shorter fs3 k _ (List.dropLast_prefix k)
                    (lstat_ok_inv fs3 k _ g).2.1
              rcases walkFrom_sim fs0 fs3 K t ha hb (rawElems t1) _ hw3 with g1 | g1 | g1
              · rw [g1]; simp
              · rw [g1] at h
                simp at h
              · rw [g1]
                cases hwf : walkFrom fs0 (if isRooted t1 then [[]] else k.dropLast)
                    (rawElems t1) with
                | error e =>
                  rw [hwf] at h
                  exact h
                | ok k1 =>
                  rw [hwf] at h
                  exact ih hm1 k1 h

theorem walk_append_of_some (fs : FS) (k : Key) (e : Errno) (h : walk fs k = some e)
    (l : List Str) : walk fs (k ++ l) = some e := by
  induction l using List.reverseRecOn with
  | nil => simpa using h
  | append_singleton l1 x ih =>
    rw [← List.append_assoc, walk_snoc, ih]

/-- The walk over elements without `..` from a directory that the walk reaches
ends as the walk to the name with these elements appended. -/
theorem walkFrom_eq_walk (fs : FS) (elems : List Str) : ∀ (cur : Key), dotdot ∉ elems →
    walk fs cur = none →
    walkFrom fs cur elems =
      match walk fs (cur ++ elems) with
      | none => .ok (cur ++ elems)
      | some e => .error e := by
  induction elems with
  | nil =>
    intro cur _ hw
    simp [walkFrom, hw]
  | cons c rest ih =>
    intro cur hnd hw
    have hc : c ≠ dotdot := fun e => hnd (by simp [e])
    have hrest : dotdot ∉ rest := fun e => hnd (by simp [e])
    have e1 : cur ++ c :: rest = (cur ++ [c]) ++ rest := by simp
    have hs : walk fs (cur ++ [c]) = checkDirs fs [cur] := by
      rw [walk_snoc, hw]
    unfold walkFrom
    rw [if_neg hc, e1]
    cases hcd : checkDirs fs [cur] with
    | some e =>
      rw [hcd] at hs
      rw [walk_append_of_some fs _ e hs rest]
    | none =>
      rw [hcd] at hs
      exact ih _ hrest hs

theorem checkKey_ne_enoent (k : Key) : checkKey k ≠ some Errno.ENOENT := by
  unfold checkKey
  split_ifs <;> simp

theorem goodStack_no_dotdot (st : List Str) (hst : GoodStack true st) : dotdot ∉ st := by
  induction st with
  | nil => simp
  | cons t rest ih =>
    obtain ⟨_, h2, h3⟩ := hst
    intro hm
    rcases List.mem_cons.1 hm with e | e
    · have := (h2 e.symm).1
      simp at this
    · exact ih h3 e

theorem goodStack_ne_dot (rooted : Bool) (st : List Str) (hst : GoodStack rooted st) :
    ∀ e ∈ st, e ≠ dot := by
  induction st with
  | nil => simp
  | cons t rest ih =>
    obtain ⟨h1, _, h3⟩ := hst
    intro e he
    rcases List.mem_cons.1 he with rfl | he
    · exact h1.2.2
    · exact ih h3 e he

/-- A rooted cleaned path has no element `..`. -/
theorem cleanElems_no_dotdot (s : Str) (hr : isRooted s = true) : dotdot ∉ cleanElems s := by
  unfold cleanElems
  have h := goodStack_scan s
  rw [hr] at h ⊢
  intro hm
  exact goodStack_no_dotdot _ h (List.mem_reverse.1 hm)

/-- The elements of a rooted cleaned path, read as the target of a link, are
the elements of the path. -/
theorem rawElems_Clean (s : Str) (hr : isRooted s = true) :
    rawElems (Clean s) = cleanElems s := by
  have hg := goodStack_scan s
  have hsep : ∀ e ∈ cleanElems s, '/' ∉ e := fun e he =>
    goodStack_no_sep _ _ hg e (List.mem_reverse.1 he)
  have hnil : ∀ e ∈ cleanElems s, e ≠ [] := fun e he =>
    goodStack_ne_nil _ _ hg e (List.mem_reverse.1 he)
  have hdot : ∀ e ∈ cleanElems s, e ≠ dot := fun e he =>
    goodStack_ne_dot _ _ hg e (List.mem_reverse.1 he)
  unfold Clean rawElems
  rw [if_pos hr]
  have hsplit : Split ('/' :: joinSep (cleanElems s)) '/' = [] :: Split (joinSep (cleanElems s)) '/' := by
    rw [Split]
    simp
  rw [hsplit]
  by_cases he : cleanElems s = []
  · rw [he]
    simp [joinSep, Split]
  · rw [Split_joinSep _ he hsep]
    rw [List.filter_cons_of_neg (by simp)]
    apply List.filter_eq_self.2
    intro e hmem
    simp [hnil e hmem, hdot e hmem]

/-- The link with a rooted cleaned target leads to the name of the target
when the directories on the way exist. -/
theorem resolveLink_Clean (fs : FS) (k : Key) (s : Str) (hr : isRooted s = true) :
    resolveLink fs k (Clean s) = walkFrom fs [[]] (cleanElems s) := by
  unfold resolveLink
  rw [if_neg (Clean_ne_nil s), isRooted_Clean, hr, rawElems_Clean s hr]
  simp

theorem pathKey_rooted (s : Str) (hr : isRooted s = true) :
    pathKey (Clean s) = [[]] ++ cleanElems s := by
  rw [pathKey_Clean]
  unfold pathKey
  rw [if_pos hr]

/-- The artifact path under a rooted home is a rooted cleaned path. -/
theorem artifact_rooted (h v : Str) (hh : h ≠ []) (hr : isRooted h = true) :
    ∃ s, isRooted s = true ∧ artifactPathOf h v = Clean s := by
  have hs : isRooted (storeDirOf h) = true := by
    show isRooted (Join [h, ".kubeversion".toList, "versions".toList]) = true
    rw [Join_three _ _ _ hh, isRooted_Clean, isRooted_append, isRooted_append _ _ hh, hr]
    simp [hh]
  refine ⟨storeDirOf h ++ '/' :: ("kubectl-".toList ++ v), ?_, ?_⟩
  · rw [isRooted_append _ _ (Join_three_ne_nil _ _ _ hh), hs]
  · exact Join_two _ _ (Join_three_ne_nil _ _ _ hh)

/-- What a run of `RemoveAll` without error did when the directory of the path
exists. -/
theorem RemoveAll_inv (fs fs2 : FS) (path : Str) (h : RemoveAll fs path = (none, fs2))
    (hw : walk fs (pathKey path) = none) :
    checkKey (pathKey path) = none ∧ nameOk (pathKey path) = true ∧
    fs2 = fs.filter fun e => !((pathKey path).isPrefixOf e.1) := by
  unfold RemoveAll at h
  simp only at h
  cases hc : checkKey (pathKey path) with
  | some e => rw [hc] at h; simp at h
  | none =>
    rw [hc, hw] at h
    simp only at h
    by_cases hok : nameOk (pathKey path) = true
    · rw [if_pos hok] at h
      simp only [Prod.mk.injEq, true_and] at h
      exact ⟨rfl, hok, h.symm⟩
    · rw [if_neg hok] at h
      simp at h

/-- The run of `RemoveAll` on a path that is a link in an existing directory. -/
theorem RemoveAll_of_walk (fs : FS) (path : Str) (hc : checkKey (pathKey path) = none)
    (hw : walk fs (pathKey path) = none) (hok : nameOk (pathKey path) = true) :
    RemoveAll fs path = (none, fs.filter fun e => !((pathKey path).isPrefixOf e.1)) := by
  unfold RemoveAll
  simp only [hc, hw, hok, if_true]


theorem stableKey_eq (h : Str) (hh : h ≠ []) :
    pathKey (stablePathOf h) = pathKey (binDirOf h) ++ ["kubectl".toList] :=
  pathKey_Join_two _ _ (Join_three_ne_nil _ _ _ hh) plain_kubectl

theorem walk_of_dirs (fs : FS) (b : Key) (x : Str)
    (h : ∀ k ∈ b.inits, nodeAt fs k = some Node.dir) : walk fs (b ++ [x]) = none := by
  unfold walk
  rw [inits_snoc, List.dropLast_concat]
  exact checkDirs_of_dirs fs _ h

/-- The state after a successful activation under a rooted home: the artifact
path is not reported missing, the bin directory is there, and the removal of the
stable path leads back to the state before the link was made. -/
theorem relink_again (fs0 fs1 fs2 fs3 : FS) (h v : Str) (hh : h ≠ [])
    (hroot : isRooted h = true)
    (hst : Stat fs0 (artifactPathOf h v) ≠ .error Errno.ENOENT)
    (hmk : MkdirAll fs0 (binDirOf h) = (none, fs1))
    (hrm : RemoveAll fs1 (stablePathOf h) = (none, fs2))
    (hsym : Symlink fs2 (artifactPathOf h v) (stablePathOf h) = (none, fs3)) :
    Stat fs3 (artifactPathOf h v) ≠ .error Errno.ENOENT ∧
    MkdirAll fs3 (binDirOf h) = (none, fs3) ∧
    RemoveAll fs3 (stablePathOf h) = (none, fs2) := by
  have hK := stableKey_eq h hh
  have hdirs := MkdirAll_dirs fs0 fs1 _ hmk
  have hw1 : walk fs1 (pathKey (stablePathOf h)) = none := by
    rw [hK]
    exact walk_of_dirs fs1 _ _ hdirs
  obtain ⟨hcK, hokK, hfs2⟩ := RemoveAll_inv fs1 fs2 _ hrm hw1
  obtain ⟨_, _, _, _, hw2, hn2, _, hfs3⟩ := Symlink_inv fs2 fs3 _ _ hsym
  have hbase := nodeAt_none_not_base fs2 _ hn2
  have hl3 := lstat_of_Symlink fs2 fs3 _ _ hsym
  have ha : nodeAt fs3 (pathKey (stablePathOf h)) = some (Node.symlink (artifactPathOf h v)) :=
    (lstat_ok_inv fs3 _ _ hl3).2.2
  have hb1 : ∀ k m, ¬ pathKey (stablePathOf h) <+: k → nodeAt fs1 k = some m →
      nodeAt fs3 k = some m := by
    intro k m hk hm
    rw [hfs3, nodeAt_cons_ne fs2 _ k _ (fun e => hk (e ▸ List.prefix_refl _)), hfs2]
    rw [← hm]
    apply nodeAt_filter_pos fs1 (fun k1 => !((pathKey (stablePathOf h)).isPrefixOf k1))
    have : (pathKey (stablePathOf h)).isPrefixOf k = false := by
      cases hp : (pathKey (stablePathOf h)).isPrefixOf k with
      | false => rfl
      | true => exact absurd (List.isPrefixOf_iff_prefix.1 hp) hk
    simp [this]
  have hb : ∀ k m, ¬ pathKey (stablePathOf h) <+: k → nodeAt fs0 k = some m →
      nodeAt fs3 k = some m :=
    fun k m hk hm => hb1 k m hk (MkdirAll_mono fs0 fs1 _ hmk k m hm)
  obtain ⟨s, hs, hvp⟩ := artifact_rooted h v hh hroot
  have hA : pathKey (artifactPathOf h v) = [[]] ++ cleanElems s := by
    rw [hvp]
    exact pathKey_rooted s hs
  refine ⟨?_, ?_, ?_⟩
  · unfold Stat at hst ⊢
    rw [hA] at hst ⊢
    cases hcA : checkKey ([[]] ++ cleanElems s) with
    | some e =>
      have hl : lstat fs3 ([[]] ++ cleanElems s) = .error e := by
        unfold lstat
        rw [hcA]
      rw [statFrom_of_lstat_error fs3 _ _ e hl]
      intro he
      simp only [Except.error.injEq] at he
      exact checkKey_ne_enoent _ (by rw [hcA, he])
    | none =>
      have hw0 : walk fs0 ([[]] ++ cleanElems s) ≠ some Errno.ENOENT := by
        intro hw
        apply hst
        apply statFrom_of_lstat_error
        unfold lstat
        rw [hcA, hw]
      have hwf0 := walkFrom_eq_walk fs0 (cleanElems s) [[]] (cleanElems_no_dotdot s hs)
        (walk_base fs0)
      have hr : resolveLink fs3 (pathKey (stablePathOf h)) (artifactPathOf h v) =
            .ok ([[]] ++ cleanElems s) ∨
          ∃ e, e ≠ Errno.ENOENT ∧
            resolveLink fs3 (pathKey (stablePathOf h)) (artifactPathOf h v) = .error e := by
        rw [hvp, resolveLink_Clean _ _ _ hs]
        rcases walkFrom_sim fs0 fs3 _ (artifactPathOf h v) ha hb (cleanElems s) [[]]
          (walk_base fs3) with g | g | g
        · exact Or.inr ⟨_, by simp, g⟩
        · exfalso
          rw [hwf0] at g
          cases hw : walk fs0 ([[]] ++ cleanElems s) with
          | none => rw [hw] at g; simp at g
          | some e =>
            rw [hw] at g
            simp only [Except.error.injEq] at g
            exact hw0 (by rw [hw, g])
        · rw [g, hwf0]
          cases hw : walk fs0 ([[]] ++ cleanElems s) with
          | none => exact Or.inl rfl
          | some e =>
            right
            refine ⟨e, ?_, rfl⟩
            intro he
            exact hw0 (by rw [hw, he])
      exact statFrom_sim fs0 fs3 _ _ _ maxSymlinks ha hb hl3 hr hst maxSymlinks
        (Nat.le_refl _) _ hst
  · unfold MkdirAll
    apply mkdirs_of_dirs
    intro k hk
    have hk2 : k ∈ (pathKey (binDirOf h)).inits := List.mem_of_mem_tail hk
    refine ⟨MkdirAll_checkKey fs0 fs1 _ hmk k hk, hb1 k _ ?_ (hdirs k hk2)⟩
    intro hp
    have := not_snoc_prefix k _ "kubectl".toList ((List.mem_inits _ _).1 hk2)
    rw [← hK, List.isPrefixOf_iff_prefix.2 hp] at this
    simp at this
  · have hw3 : walk fs3 (pathKey (stablePathOf h)) = none := (lstat_ok_inv fs3 _ _ hl3).2.1
    rw [RemoveAll_of_walk fs3 _ hcK hw3 hokK, hfs3,
      List.filter_cons_of_neg (by simp [isPrefixOf_self]), hfs2, List.filter_filter]
    simp

set_option maxRecDepth 100000 in
/-- C3, as the claim states it, fails in two ways.  A version that the scan
reports need not have an artifact: with the file `kubectl-1.28.0` in the store
the scan reports `1.28.0`, and the first call of `SwitchVersion("1.28.0")` and
the second one both return the "not installed" error.  And with the relative
home `h`, where `os.Stat` finds the artifact `kubectl-v1.29.0`, a symbolic link
to the regular file at the stable path, the first call of
`SwitchVersion("v1.29.0")` returns no error and leaves the stable path as a link
with the relative target `h/.kubeversion/versions/kubectl-v1.29.0`, which
dangles; the artifact then leads nowhere, and the second call returns the
"not installed" error. -/
theorem SwitchVersion_twice_fails :
    (getInstalledVersions untaggedWorld = .ok ["1.28.0".toList] ∧
      (SwitchVersion untaggedWorld "1.28.0".toList).1 =
        some ⟨"version v1.28.0 is not installed. Use 'kubeversion install v1.28.0' first".toList,
          none⟩ ∧
      (SwitchVersion (SwitchVersion untaggedWorld "1.28.0".toList).2 "1.28.0".toList).1 =
        some ⟨"version v1.28.0 is not installed. Use 'kubeversion install v1.28.0' first".toList,
          none⟩) ∧
    (getInstalledVersions relativeWorld = .ok ["v1.29.0".toList] ∧
      Stat relativeWorld.fs (artifactPathOf "h".toList "v1.29.0".toList) =
        .ok (Node.file [127, 69]) ∧
      (SwitchVersion relativeWorld "v1.29.0".toList).1 = none ∧
      lstat (SwitchVersion relativeWorld "v1.29.0".toList).2.fs
          ["h".toList, ".kubeversion".toList, "bin".toList, "kubectl".toList] =
        .ok (Node.symlink "h/.kubeversion/versions/kubectl-v1.29.0".toList) ∧
      Stat (SwitchVersion relativeWorld "v1.29.0".toList).2.fs
          (artifactPathOf "h".toList "v1.29.0".toList) = .error Errno.ENOENT ∧
      (SwitchVersion (SwitchVersion relativeWorld "v1.29.0".toList).2 "v1.29.0".toList).1 =
        some ⟨"version v1.29.0 is not installed. Use 'kubeversion install v1.29.0' first".toList,
          none⟩) := by
  decide

/-- C3, amended: for every version string whose artifact
`<home>/.kubeversion/versions/kubectl-<canonical version>` exists (`os.Stat`
succeeds on it) under a home directory that is an absolute path, and for every
starting state of the file system in which the directory-create, remove and
symlink operations of the first call do not fail (the stable path may be
absent, a stale link, a regular file, a directory, or the link to this
version), `SwitchVersion` returns no error, a second call right after it
returns no error either, and the file system after the second call equals the
file system after the first. -/
theorem SwitchVersion_twice (w : World) (h v : Str) (n : Node) (fs1 fs2 fs3 : FS)
    (hh : UserHomeDir w = .ok h) (hroot : isRooted h = true)
    (hst : Stat w.fs (artifactPathOf h (normalize v)) = .ok n)
    (hmk : MkdirAll w.fs (binDirOf h) = (none, fs1))
    (hrm : RemoveAll fs1 (stablePathOf h) = (none, fs2))
    (hsym : Symlink fs2 (artifactPathOf h (normalize v)) (stablePathOf h) = (none, fs3)) :
    (SwitchVersion w v).1 = none ∧
    (SwitchVersion (SwitchVersion w v).2 v).1 = none ∧
    (SwitchVersion (SwitchVersion w v).2 v).2.fs = (SwitchVersion w v).2.fs := by
  have hne : h ≠ [] := by
    have := UserHomeDir_ok w h hh
    rw [this.1]
    exact this.2
  have hst0 : Stat w.fs (artifactPathOf h (normalize v)) ≠ .error Errno.ENOENT := by
    rw [hst]
    simp
  obtain ⟨h1, h2, h3⟩ := SwitchVersion_ok w h v fs1 fs2 fs3 hh hst0 hmk hrm hsym
  have hh1 : UserHomeDir (SwitchVersion w v).2 = .ok h := by
    unfold UserHomeDir at hh ⊢
    rw [h3]
    exact hh
  obtain ⟨s1, s2, s3⟩ :=
    relink_again w.fs fs1 fs2 fs3 h (normalize v) hne hroot hst0 hmk hrm hsym
  rw [← h2] at s1 s2 s3
  obtain ⟨g1, g2, _⟩ := SwitchVersion_ok (SwitchVersion w v).2 h v _ fs2 fs3 hh1 s1 s2 s3 hsym
  exact ⟨h1, g1, by rw [g2, h2]⟩

/-- Witness of C3, amended: with the artifact `kubectl-v1.29.0` in the store and
a regular file at the stable path, two calls of `SwitchVersion("1.29.0")` in a
row. -/
theorem SwitchVersion_twice_witness :
    (SwitchVersion staleWorld "1.29.0".toList).1 = none ∧
    (SwitchVersion (SwitchVersion staleWorld "1.29.0".toList).2 "1.29.0".toList).1 = none ∧
    (SwitchVersion (SwitchVersion staleWorld "1.29.0".toList).2 "1.29.0".toList).2.fs
      = (SwitchVersion staleWorld "1.29.0".toList).2.fs :=
  SwitchVersion_twice staleWorld "/home/u".toList "1.29.0".toList (Node.file [127, 69])
    (MkdirAll staleWorld.fs (binDirOf "/home/u".toList)).2
    (RemoveAll (MkdirAll staleWorld.fs (binDirOf "/home/u".toList)).2
      (stablePathOf "/home/u".toList)).2
    (Symlink (RemoveAll (MkdirAll staleWorld.fs (binDirOf "/home/u".toList)).2
        (stablePathOf "/home/u".toList)).2
      (artifactPathOf "/home/u".toList (normalize "1.29.0".toList))
      (stablePathOf "/home/u".toList)).2
    rfl rfl (by decide) (by decide) (by decide) (by decide)


/-! ## The installer -/

/-- What a run of `InstallVersion` without error went through. -/
theorem InstallVersion_ok_inv (w w1 : World) (v : Str) (hi : InstallVersion w v = (none, w1)) :
    ∃ h fs1 resp out fs2,
      UserHomeDir w = .ok h ∧
      MkdirAll w.fs (storeDirOf h) = (none, fs1) ∧
      w.http (downloadURL (normalize v) w.goos w.goarch) = some resp ∧
      resp.status = 200 ∧ resp.bodyErr = false ∧
      OpenFile fs1 (artifactPathOf h (normalize v)) = .ok (out, fs2) ∧
      w1 = { w with fs := writeFile fs2 out resp.body } := by
  unfold InstallVersion at hi
  cases hh : UserHomeDir w with
  | error c => rw [hh] at hi; simp at hi
  | ok h =>
    rw [hh] at hi
    simp only at hi
    cases hmk : MkdirAll w.fs (Join [h, ".kubeversion".toList, "versions".toList]) with
    | mk e fs1 =>
      rw [hmk] at hi
      cases e with
      | some e => simp at hi
      | none =>
        simp only at hi
        cases hg : w.http (downloadURL (normalize v) w.goos w.goarch) with
        | none => rw [hg] at hi; simp at hi
        | some resp =>
          rw [hg] at hi
          simp only at hi
          by_cases hs : resp.status = 200
          · rw [if_neg (by simpa using hs)] at hi
            cases ho : OpenFile fs1 (Join [Join [h, ".kubeversion".toList, "versions".toList],
                "kubectl-".toList ++ normalize v]) with
            | error e => rw [ho] at hi; simp at hi
            | ok r =>
              obtain ⟨out, fs2⟩ := r
              rw [ho] at hi
              simp only at hi
              cases hb : resp.bodyErr with
              | true => rw [hb] at hi; simp at hi
              | false =>
                rw [hb] at hi
                simp only [Bool.false_eq_true, ↓reduceIte, Prod.mk.injEq, true_and] at hi
                exact ⟨h, fs1, resp, out, fs2, rfl, hmk, rfl, hs, hb, ho, hi.symm⟩
          · rw [if_pos (by simpa using hs)] at hi
            simp at hi

theorem openFrom_new (fs : FS) (k0 out : Key) (fs2 : FS) (hn : nodeAt fs k0 = none)
    (h : (if nameOk k0 = true then Except.ok (k0, (k0, Node.file []) :: fs)
      else Except.error Errno.ENAMETOOLONG : Except Errno (Key × FS)) = .ok (out, fs2)) :
    (∀ k n, nodeAt fs k = some n → nodeAt fs2 k = some n) ∧ (∃ n, nodeAt fs2 k0 = some n) := by
  by_cases hok : nameOk k0 = true
  · rw [if_pos hok] at h
    simp only [Except.ok.injEq, Prod.mk.injEq] at h
    obtain ⟨rfl, rfl⟩ := h
    refine ⟨?_, ⟨_, nodeAt_cons_self fs _ _ (nodeAt_none_not_base fs _ hn) hok⟩⟩
    intro k n hk
    rw [nodeAt_cons_ne]
    · exact hk
    · intro e
      rw [e, hn] at hk
      simp at hk
  · rw [if_neg hok] at h
    simp at h

/-- Opening for writing keeps every object and leaves an object under the opened
path. -/
theorem openFrom_spec (fs : FS) : ∀ (fuel : Nat) (k0 out : Key) (fs2 : FS),
    openFrom fs fuel k0 = .ok (out, fs2) →
    (∀ k n, nodeAt fs k = some n → nodeAt fs2 k = some n) ∧ (∃ n, nodeAt fs2 k0 = some n) := by
  intro fuel
  induction fuel with
  | zero =>
    intro k0 out fs2 h
    unfold openFrom at h
    cases hc : checkKey k0 with
    | some e => rw [hc] at h; simp at h
    | none =>
      rw [hc] at h
      cases hw : walk fs k0 with
      | some e => rw [hw] at h; simp at h
      | none =>
        rw [hw] at h
        cases hn : nodeAt fs k0 with
        | none =>
          rw [hn] at h
          exact openFrom_new fs k0 out fs2 hn h
        | some m =>
          rw [hn] at h
          cases m with
          | file c =>
            simp only [Except.ok.injEq, Prod.mk.injEq] at h
            obtain ⟨rfl, rfl⟩ := h
            exact ⟨fun _ _ hk => hk, ⟨_, hn⟩⟩
          | dir => simp at h
          | symlink t => simp at h
  | succ n ih =>
    intro k0 out fs2 h
    unfold openFrom at h
    cases hc : checkKey k0 with
    | some e => rw [hc] at h; simp at h
    | none =>
      rw [hc] at h
      cases hw : walk fs k0 with
      | some e => rw [hw] at h; simp at h
      | none =>
        rw [hw] at h
        cases hn : nodeAt fs k0 with
        | none =>
          rw [hn] at h
          exact openFrom_new fs k0 out fs2 hn h
        | some m =>
          rw [hn] at h
          cases m with
          | file c =>
            simp only [Except.ok.injEq, Prod.mk.injEq] at h
            obtain ⟨rfl, rfl⟩ := h
            exact ⟨fun _ _ hk => hk, ⟨_, hn⟩⟩
          | dir => simp at h
          | symlink t =>
            simp only at h
            cases hr : resolveLink fs k0 t with
            | error e => rw [hr] at h; simp at h
            | ok k1 =>
              rw [hr] at h
              obtain ⟨hmono, _⟩ := ih _ _ _ h
              exact ⟨hmono, ⟨_, hmono _ _ hn⟩⟩

theorem mem_inits_tail_self (k : Key) (hk : k ≠ []) : k ∈ k.inits.tail := by
  cases k with
  | nil => exact absurd rfl hk
  | cons a l =>
    rw [List.inits_cons, List.tail_cons]
    exact List.mem_map.2 ⟨l, (List.mem_inits _ _).2 (List.prefix_refl l), rfl⟩

/-- C4, as the claim states it, fails: for the version string `v1.29.0/` the
installer writes the artifact `kubectl-v1.29.0`, because `filepath.Join` cleans
the trailing separator away, and the scan that follows returns `v1.29.0`, not
the canonical identifier `v1.29.0/` of the argument. -/
theorem InstallVersion_slash_not_listed :
    (InstallVersion slashWorld "v1.29.0/".toList).1 = none ∧
    getInstalledVersions (InstallVersion slashWorld "v1.29.0/".toList).2
      = .ok ["v1.29.0".toList] ∧
    normalize "v1.29.0/".toList ∉ ["v1.29.0".toList] := by
  decide

/-- C4, amended: for every version string without path separator and every prior
state of the version store, if `InstallVersion` returns no error then a scan
that follows succeeds and its result contains the canonical identifier of the
version, which is the version string itself when that starts with `v`. -/
theorem InstallVersion_then_scan (w w1 : World) (v : Str) (hv : '/' ∉ v)
    (hi : InstallVersion w v = (none, w1)) :
    ∃ ids, getInstalledVersions w1 = .ok ids ∧ normalize v ∈ ids ∧
      (HasPrefix v versionPrefix = true → v ∈ ids) := by
  obtain ⟨h, fs1, resp, out, fs2, hh, hmk, _, _, _, ho, hw⟩ := InstallVersion_ok_inv w w1 v hi
  have hne : h ≠ [] := by
    have := UserHomeDir_ok w h hh
    rw [this.1]
    exact this.2
  have hnv := normalize_no_sep v hv
  have hdirs := MkdirAll_dirs w.fs fs1 _ hmk
  obtain ⟨hmono, n, hn⟩ := openFrom_spec fs1 _ _ _ _ ho
  have hdirs3 : ∀ k ∈ (pathKey (storeDirOf h)).inits,
      nodeAt (writeFile fs2 out resp.body) k = some Node.dir :=
    fun k hk => nodeAt_writeFile_dir _ _ _ _ (hmono _ _ (hdirs k hk))
  obtain ⟨m, hm⟩ := nodeAt_writeFile_some fs2 out resp.body _ n hn
  have hh1 : UserHomeDir w1 = .ok h := by
    rw [hw]
    exact hh
  have hfs : w1.fs = writeFile fs2 out resp.body := by rw [hw]
  have hr : ReadDir w1.fs (storeDirOf h) =
      .ok ((childNames w1.fs (pathKey (storeDirOf h))).dedup.insertionSort Ascending) := by
    unfold ReadDir
    have hcheck : checkKey (pathKey (storeDirOf h)) = none := by
      apply MkdirAll_checkKey w.fs fs1 _ hmk
      apply mem_inits_tail_self
      show pathKey (Join [h, ".kubeversion".toList, "versions".toList]) ≠ []
      rw [pathKey_Join_three h _ _ hne plain_kubeversion plain_versions]
      simp
    have hwalk : walk w1.fs (pathKey (storeDirOf h)) = none := by
      rw [hfs]
      exact checkDirs_of_dirs _ _ (fun k hk => hdirs3 k (List.mem_of_mem_dropLast hk))
    have hnode : nodeAt w1.fs (pathKey (storeDirOf h)) = some Node.dir := by
      rw [hfs]
      exact hdirs3 _ ((List.mem_inits _ _).2 (List.prefix_refl _))
    simp only [hcheck, hwalk, hnode]
  have hmem : "kubectl-".toList ++ normalize v ∈
      (childNames w1.fs (pathKey (storeDirOf h))).dedup.insertionSort Ascending := by
    rw [mem_ReadDir _ _ _ hr]
    apply mem_childNames _ _ _ (by simp) m
    rw [hfs, ← pathKey_artifact h _ hne hnv]
    exact hm
  have hids : normalize v ∈ ((childNames w1.fs (pathKey (storeDirOf h))).dedup.insertionSort
      Ascending).map fun entry => TrimPrefix entry "kubectl-".toList :=
    List.mem_map.2 ⟨_, hmem, TrimPrefix_append _ _⟩
  refine ⟨_, ?_, hids, ?_⟩
  · unfold getInstalledVersions
    rw [hh1]
    simp only [hr]
  · intro hp
    have : normalize v = v := by
      unfold normalize
      simp [hp]
    rw [this] at hids
    exact hids

/-- Witness of C4, amended: installing `1.29.0` into a fresh environment. -/
theorem InstallVersion_then_scan_witness :
    ∃ ids, getInstalledVersions (InstallVersion downloadWorld "1.29.0".toList).2 = .ok ids ∧
      normalize "1.29.0".toList ∈ ids ∧
      (HasPrefix "1.29.0".toList versionPrefix = true → "1.29.0".toList ∈ ids) :=
  InstallVersion_then_scan downloadWorld (InstallVersion downloadWorld "1.29.0".toList).2
    "1.29.0".toList (by decide) (Prod.ext (by decide) rfl)

/-- C5: re-installing over a longer artifact does not leave the fetched bytes as
the content.  The store holds `kubectl-v1.29.0` with the bytes `1 2 3 4 5`, the
server delivers the bytes `9 9`; `InstallVersion("v1.29.0")` returns no error
and the artifact holds `9 9 3 4 5`: the file is opened without `O_TRUNC`. -/
theorem InstallVersion_keeps_tail :
    (InstallVersion reinstallWorld "v1.29.0".toList).1 = none ∧
    lstat reinstallWorld.fs (storeEntry "kubectl-v1.29.0".toList)
      = .ok (Node.file [1, 2, 3, 4, 5]) ∧
    lstat (InstallVersion reinstallWorld "v1.29.0".toList).2.fs
        (storeEntry "kubectl-v1.29.0".toList)
      = .ok (Node.file [9, 9, 3, 4, 5]) := by
  decide


/-! ## The remote version lister -/

theorem strLE_total (a : Str) : ∀ b : Str, strLE a b = true ∨ strLE b a = true := by
  induction a with
  | nil => intro b; left; rfl
  | cons x xs ih =>
    intro b
    cases b with
    | nil => right; rfl
    | cons y ys =>
      unfold strLE
      rcases Nat.lt_trichotomy x.toNat y.toNat with h | h | h
      · left; simp [h]
      · have h1 : ¬ x.toNat < y.toNat := by omega
        have h2 : ¬ y.toNat < x.toNat := by omega
        simp only [h1, h2, if_false]
        exact ih ys
      · right; simp [h]

theorem strLE_trans (a : Str) : ∀ b c : Str, strLE a b = true → strLE b c = true →
    strLE a c = true := by
  induction a with
  | nil => intro b c _ _; rfl
  | cons x xs ih =>
    intro b c hab hbc
    cases b with
    | nil => simp [strLE] at hab
    | cons y ys =>
      cases c with
      | nil => simp [strLE] at hbc
      | cons z zs =>
        unfold strLE at hab hbc ⊢
        by_cases h1 : x.toNat < y.toNat
        · by_cases h2 : y.toNat < z.toNat
          · have : x.toNat < z.toNat := by omega
            simp [this]
          · by_cases h3 : z.toNat < y.toNat
            · simp [h2, h3] at hbc
            · have : x.toNat < z.toNat := by omega
              simp [this]
        · by_cases h1b : y.toNat < x.toNat
          · simp [h1, h1b] at hab
          · simp only [h1, h1b, if_false] at hab
            by_cases h2 : y.toNat < z.toNat
            · have : x.toNat < z.toNat := by omega
              simp [this]
            · by_cases h3 : z.toNat < y.toNat
              · simp [h2, h3] at hbc
              · simp only [h2, h3, if_false] at hbc
                have e1 : ¬ x.toNat < z.toNat := by omega
                have e2 : ¬ z.toNat < x.toNat := by omega
                simp only [e1, e2, if_false]
                exact ih ys zs hab hbc

theorem strLE_antisymm (a : Str) : ∀ b : Str, strLE a b = true → strLE b a = true → a = b := by
  induction a with
  | nil =>
    intro b _ hba
    cases b with
    | nil => rfl
    | cons y ys => simp [strLE] at hba
  | cons x xs ih =>
    intro b hab hba
    cases b with
    | nil => simp [strLE] at hab
    | cons y ys =>
      unfold strLE at hab hba
      by_cases h1 : x.toNat < y.toNat
      · have : ¬ y.toNat < x.toNat := by omega
        simp [h1, this] at hba
      · by_cases h2 : y.toNat < x.toNat
        · simp [h1, h2] at hab
        · simp only [h1, h2, if_false] at hab hba
          have hxy : x = y := by
            apply Char.ext
            apply UInt32.ext
            have : x.toNat = y.toNat := by omega
            exact this
          rw [hxy, ih ys hab hba]

/-- C6: for every release list that the server delivers with status 200 and that
decodes, `fetchAvailableVersions` returns a list that holds exactly the tag names
beginning with `v`, each as often as in the release list, in descending
byte-wise order; it is the only list with these two properties. -/
theorem fetchAvailableVersions_sorted (decode : Response → Option (List Release)) (w : World)
    (resp : Response) (releases : List Release)
    (hget : w.http "https://api.github.com/repos/kubernetes/kubernetes/releases".toList
      = some resp)
    (hstatus : resp.status = 200) (hdec : decode resp = some releases) :
    ∃ versions, fetchAvailableVersions decode w = .ok versions ∧
      versions.Perm ((releases.map fun r => r.TagName).filter fun t => HasPrefix t "v".toList) ∧
      versions.Sorted Descending ∧
      ∀ other : List Str,
        other.Perm ((releases.map fun r => r.TagName).filter fun t => HasPrefix t "v".toList) →
        other.Sorted Descending → other = versions := by
  haveI : IsTotal Str Descending := ⟨fun a b => strLE_total b a⟩
  haveI : IsTrans Str Descending := ⟨fun a b c hab hbc => strLE_trans c b a hbc hab⟩
  haveI : IsAntisymm Str Descending := ⟨fun a b hab hba => strLE_antisymm a b hba hab⟩
  have hfm : (releases.filter fun release => HasPrefix release.TagName "v".toList).map
      (fun release => release.TagName)
      = (releases.map fun r => r.TagName).filter fun t => HasPrefix t "v".toList := by
    rw [List.filter_map]
    rfl
  refine ⟨List.insertionSort Descending
    ((releases.filter fun release => HasPrefix release.TagName "v".toList).map
      fun release => release.TagName), ?_, ?_, ?_, ?_⟩
  · unfold fetchAvailableVersions
    rw [hget]
    simp only [hstatus, hdec]
    simp only [ne_eq, not_true_eq_false, ↓reduceIte]
  · rw [hfm]
    exact List.perm_insertionSort Descending _
  · exact List.sorted_insertionSort Descending _
  · intro other hp hs
    rw [hfm]
    exact List.eq_of_perm_of_sorted
      (hp.trans (List.perm_insertionSort Descending _).symm) hs
      (List.sorted_insertionSort Descending _)

/-- Witness of C6: the releases `v1.28.0`, `nightly`, `v1.30.0`, `v1.29.0` come back
as `v1.30.0`, `v1.29.0`, `v1.28.0`. -/
theorem fetchAvailableVersions_sorted_witness :
    fetchAvailableVersions sampleDecode catalogWorld
      = .ok ["v1.30.0".toList, "v1.29.0".toList, "v1.28.0".toList] ∧
    ∃ versions, fetchAvailableVersions sampleDecode catalogWorld = .ok versions ∧
      versions.Perm (([⟨"v1.28.0".toList⟩, ⟨"nightly".toList⟩, ⟨"v1.30.0".toList⟩,
        ⟨"v1.29.0".toList⟩].map fun r : Release => r.TagName).filter
          fun t => HasPrefix t "v".toList) ∧
      versions.Sorted Descending ∧
      ∀ other : List Str,
        other.Perm (([⟨"v1.28.0".toList⟩, ⟨"nightly".toList⟩, ⟨"v1.30.0".toList⟩,
          ⟨"v1.29.0".toList⟩].map fun r : Release => r.TagName).filter
            fun t => HasPrefix t "v".toList) →
        other.Sorted Descending → other = versions :=
  ⟨by decide,
   fetchAvailableVersions_sorted sampleDecode catalogWorld ⟨200, [91, 93], false⟩ _
    (by decide) rfl rfl⟩

end Kubeversion
